import Mathlib

/-!
# Verification of the discograph relationship-graph core

A shallow embedding, in Lean 4, of the parts of the `discograph` repository
that the specification's claims are about:

* `src/social/inference.rs` — `Interaction`, `RelationshipChangeReason`,
  `InferenceState::infer`, `parse_direct_mention`, and the decay constants;
* `src/social/graph.rs` — `UserRelationshipGraphMap` (decay, serialization,
  persistence) and `SocialGraph` (`infer`, `apply`, `build_guild_graph`,
  `remove_guild`, `remove_channel`, `get_graph`);
* `src/cache.rs` — the `Ready`-event guild retention in `Cache::update`,
  and the chunking / partial-result semantics of `Cache::bulk_request_members`.

Modelling conventions:

* Discord snowflake ids (`Id<…Marker>`, `u64` wrappers that are non-zero by
  construction) are modelled as `Nat`; where a claim depends on the `u64`
  range or the non-zero invariant this appears as an explicit hypothesis.
* `RelationshipStrength` is `f32` in the source; it is modelled by the exact
  rationals `ℚ`.  All constants involved (`-0.02`, `-0.0002`, the change
  strengths) are short decimal literals and none of the claims under
  verification depends on rounding behaviour, only on signs, comparisons
  with zero and sums.
* Rust `HashMap`s are modelled as association lists with (where a statement
  needs it) a `Nodup` hypothesis on the keys; iteration order of a `HashMap`
  is unspecified in Rust, and the order-sensitive claims are stated up to
  permutation of the entry list.
* `Instant` timestamps are modelled as `Nat` seconds; `Instant::duration_since`
  saturates at zero, which is truncated `Nat` subtraction.
* Fallible operations (`Result`/`io::Result`/serde errors, and the
  `Id::new` panic on a zero id inside the deserializer) are modelled with
  `Option`.
-/

set_option maxRecDepth 8000

namespace Discograph

/-- Discord snowflake user id (`Id<UserMarker>`). -/
abbrev UserId := Nat

/-- Discord snowflake guild id (`Id<GuildMarker>`). -/
abbrev GuildId := Nat

/-- Discord snowflake channel id (`Id<ChannelMarker>`). -/
abbrev ChannelId := Nat

/-- `pub type RelationshipStrength = f32;` modelled as the exact rationals. -/
abbrev RelationshipStrength := ℚ

/-- `pub const RELATIONSHIP_DECAY: RelationshipStrength = -0.02;` -/
def RELATIONSHIP_DECAY : RelationshipStrength := -(2/100)

/-- `pub const RELATIONSHIP_DECAY_GLOBAL: RelationshipStrength = -0.0002;` -/
def RELATIONSHIP_DECAY_GLOBAL : RelationshipStrength := -(2/10000)

/-- `pub enum InteractionType { Message, Reaction }` -/
inductive InteractionType where
  | Message
  | Reaction
  deriving DecidableEq, Repr

/-- `pub enum RelationshipChangeReason` from `src/social/inference.rs`. -/
inductive RelationshipChangeReason where
  | Reaction
  | MessageDirectMention
  | MessageIndirectMention
  | MessageAdjacency
  | MessageBinarySequence
  deriving DecidableEq, Repr

/-- `RelationshipChangeReason::get_change_strength`. -/
def RelationshipChangeReason.get_change_strength :
    RelationshipChangeReason → RelationshipStrength
  | .Reaction => 1/10
  | .MessageDirectMention => 2
  | .MessageIndirectMention => 1
  | .MessageAdjacency => 1/2
  | .MessageBinarySequence => 1/2

/-- `pub struct Interaction` from `src/social/inference.rs`.
`when` is the `Instant` timestamp, modelled in whole seconds. -/
structure Interaction where
  what : InteractionType
  whenSecs : Nat
  guild : GuildId
  channel : ChannelId
  source : UserId
  source_is_bot : Bool
  target : Option UserId
  other_targets : List UserId
  deriving DecidableEq, Repr

/-- `pub struct RelationshipChange` from `src/social/inference.rs`. -/
structure RelationshipChange where
  source : UserId
  target : UserId
  reason : RelationshipChangeReason
  deriving DecidableEq, Repr

/-! ## Association-list helpers (model of `HashMap`)

Rust `HashMap`s keep at most one entry per key; the list model keeps that
as a `Nodup` side condition where a statement needs it.  Lookup returns the
first matching entry. -/

/-- First-match association lookup (model of `HashMap::get`). -/
def lookupKey {κ α : Type} [DecidableEq κ] : List (κ × α) → κ → Option α
  | [], _ => none
  | (k, a) :: rest, key => if key = k then some a else lookupKey rest key

/-- `HashMap::entry(k)`-style update: replace the value at `k` by
`f (some old)` when present, otherwise add a fresh entry `(k, f none)`
(at the end; a `HashMap` has no observable entry order). -/
def updateKey {κ α : Type} [DecidableEq κ] : List (κ × α) → κ →
    (Option α → α) → List (κ × α)
  | [], key, f => [(key, f none)]
  | (k, a) :: rest, key, f =>
    if k = key then (k, f (some a)) :: rest else (k, a) :: updateKey rest key f

@[simp] theorem lookupKey_nil {κ α : Type} [DecidableEq κ] (key : κ) :
    lookupKey ([] : List (κ × α)) key = none := rfl

@[simp] theorem lookupKey_cons {κ α : Type} [DecidableEq κ] (k : κ) (a : α)
    (rest : List (κ × α)) (key : κ) :
    lookupKey ((k, a) :: rest) key = if key = k then some a else lookupKey rest key := rfl

/-- Lookup commutes with a value-only map. -/
theorem lookupKey_map_value {κ α : Type} [DecidableEq κ] (l : List (κ × α))
    (f : α → α) (key : κ) :
    lookupKey (l.map fun p => (p.1, f p.2)) key = (lookupKey l key).map f := by
  induction l with
  | nil => rfl
  | cons p rest ih =>
    obtain ⟨k, a⟩ := p
    simp only [List.map_cons, lookupKey_cons]
    by_cases h : key = k <;> simp [h, ih]

/-- Looking up the updated key. -/
theorem lookupKey_updateKey_self {κ α : Type} [DecidableEq κ]
    (l : List (κ × α)) (key : κ) (f : Option α → α) :
    lookupKey (updateKey l key f) key = some (f (lookupKey l key)) := by
  induction l with
  | nil => simp [updateKey]
  | cons p rest ih =>
    obtain ⟨k, a⟩ := p
    by_cases h : k = key
    · subst h; simp [updateKey]
    · have h' : ¬key = k := fun hc => h hc.symm
      simp [updateKey, h, h', ih]

/-- Looking up a key other than the updated one. -/
theorem lookupKey_updateKey_other {κ α : Type} [DecidableEq κ]
    (l : List (κ × α)) (key key' : κ) (f : Option α → α) (h : key' ≠ key) :
    lookupKey (updateKey l key f) key' = lookupKey l key' := by
  induction l with
  | nil => simp [updateKey, h]
  | cons p rest ih =>
    obtain ⟨k, a⟩ := p
    by_cases hk : k = key
    · subst hk
      have h' : ¬key' = k := h
      simp [updateKey, h']
    · by_cases hk' : key' = k <;> simp [updateKey, hk, hk', ih]

/-- Keys after an update: the updated key is added, the rest are kept. -/
theorem keys_updateKey {κ α : Type} [DecidableEq κ]
    (l : List (κ × α)) (key : κ) (f : Option α → α) :
    (updateKey l key f).map Prod.fst =
      if key ∈ l.map Prod.fst then l.map Prod.fst
      else l.map Prod.fst ++ [key] := by
  induction l with
  | nil => simp [updateKey]
  | cons p rest ih =>
    obtain ⟨k, a⟩ := p
    by_cases hk : k = key
    · subst hk; simp [updateKey]
    · have hk' : ¬key = k := fun hc => hk hc.symm
      by_cases hmem : key ∈ rest.map Prod.fst <;>
        simp [updateKey, hk, hk', hmem, ih, List.mem_cons]

/-! ## `UserRelationshipGraphMap` (`src/social/graph.rs`)

`pub struct UserRelationshipGraphMap(HashMap<(Id<UserMarker>, Id<UserMarker>), RelationshipStrength>)`
modelled as an association list from ordered user-id pairs to strengths. -/

/-- A directed relationship edge key: `(source, target)`. -/
abbrev EdgeKey := UserId × UserId

/-- The per-channel weighted directed graph. -/
structure UserRelationshipGraphMap where
  entries : List (EdgeKey × RelationshipStrength)
  deriving DecidableEq, Repr

namespace UserRelationshipGraphMap

/-- `UserRelationshipGraphMap::new()`. -/
def new : UserRelationshipGraphMap := ⟨[]⟩

/-- The keys of the map (each `HashMap` key occurs once; see `WF`). -/
def keys (g : UserRelationshipGraphMap) : List EdgeKey :=
  g.entries.map Prod.fst

/-- `HashMap` well-formedness: at most one entry per key. -/
def WF (g : UserRelationshipGraphMap) : Prop := g.keys.Nodup

instance (g : UserRelationshipGraphMap) : Decidable g.WF := by
  unfold WF
  infer_instance

/-- `HashMap::get` on the graph. -/
def find? (g : UserRelationshipGraphMap) (key : EdgeKey) :
    Option RelationshipStrength :=
  lookupKey g.entries key

/-- Entry-list form of `UserRelationshipGraphMap::decay`: every weight gets
`amount` added, and every entry whose new weight is `<= 0.0` is removed.
The source does this in two passes (mutate all weights, collect the keys
that ended up `<= 0.0` into `edges_to_remove`, then remove those keys);
on a map with unique keys that is the same as this single pass. -/
def decayList : List (EdgeKey × RelationshipStrength) → RelationshipStrength →
    List (EdgeKey × RelationshipStrength)
  | [], _ => []
  | (k, w) :: rest, amount =>
    if w + amount ≤ 0 then decayList rest amount
    else (k, w + amount) :: decayList rest amount

/-- `UserRelationshipGraphMap::decay`. -/
def decay (g : UserRelationshipGraphMap) (amount : RelationshipStrength) :
    UserRelationshipGraphMap :=
  ⟨decayList g.entries amount⟩

/-- One step of `graph.entry((change.source, change.target)).or_default()`
followed by `*weight += change.reason.get_change_strength()`. -/
def addWeight (g : UserRelationshipGraphMap) (key : EdgeKey)
    (amount : RelationshipStrength) : UserRelationshipGraphMap :=
  ⟨updateKey g.entries key fun w => w.getD 0 + amount⟩

/-- `HashMap::insert` (used by the deserializer). -/
def insertEntry (g : UserRelationshipGraphMap) (key : EdgeKey)
    (w : RelationshipStrength) : UserRelationshipGraphMap :=
  ⟨updateKey g.entries key fun _ => w⟩

/-- The loop in `SocialGraph::apply` that folds a list of
`RelationshipChange`s into the graph. -/
def applyChanges (g : UserRelationshipGraphMap)
    (changes : List RelationshipChange) : UserRelationshipGraphMap :=
  changes.foldl
    (fun g change =>
      g.addWeight (change.source, change.target) change.reason.get_change_strength)
    g

/-- A key absent from the key list looks up to `none`. -/
theorem lookupKey_eq_none_of_not_mem {κ α : Type} [DecidableEq κ]
    (l : List (κ × α)) (key : κ) (h : key ∉ l.map Prod.fst) :
    lookupKey l key = none := by
  induction l with
  | nil => rfl
  | cons p rest ih =>
    obtain ⟨k, a⟩ := p
    simp only [List.map_cons, List.mem_cons] at h
    push_neg at h
    simp [lookupKey_cons, h.1, ih h.2]

/-- The keys of a decayed list form a sublist of the original keys. -/
theorem keys_decayList_sublist (l : List (EdgeKey × RelationshipStrength))
    (amount : RelationshipStrength) :
    ((decayList l amount).map Prod.fst).Sublist (l.map Prod.fst) := by
  induction l with
  | nil => simp [decayList]
  | cons p rest ih =>
    obtain ⟨k, w⟩ := p
    by_cases hle : w + amount ≤ 0
    · simp only [decayList, if_pos hle, List.map_cons]
      exact ih.trans (List.sublist_cons_self _ _)
    · simp only [decayList, if_neg hle, List.map_cons]
      exact ih.cons₂ _

@[simp] theorem find?_decay (g : UserRelationshipGraphMap)
    (amount : RelationshipStrength) (key : EdgeKey) (hwf : g.WF) :
    (g.decay amount).find? key =
      match g.find? key with
      | some w => if w + amount ≤ 0 then none else some (w + amount)
      | none => none := by
  obtain ⟨l⟩ := g
  simp only [WF, keys] at hwf
  induction l with
  | nil => rfl
  | cons p rest ih =>
    obtain ⟨k, w⟩ := p
    simp only [List.map_cons, List.nodup_cons] at hwf
    obtain ⟨hknotin, hrest⟩ := hwf
    by_cases hk : key = k
    · subst hk
      by_cases hle : w + amount ≤ 0
      · have htail : lookupKey (decayList rest amount) key = none :=
          lookupKey_eq_none_of_not_mem _ _
            (fun hmem => hknotin ((keys_decayList_sublist rest amount).mem hmem))
        simp [decay, find?, decayList, hle, htail]
      · simp [decay, find?, decayList, hle]
    · have hrec := ih hrest
      simp only [decay, find?] at hrec
      by_cases hle : w + amount ≤ 0
      · simpa [decay, find?, decayList, hle, hk] using hrec
      · simpa [decay, find?, decayList, hle, hk] using hrec

/-- Decay keeps the keys a sublist, hence preserves `WF`. -/
theorem WF_decay {g : UserRelationshipGraphMap} (hwf : g.WF)
    (amount : RelationshipStrength) : (g.decay amount).WF :=
  (keys_decayList_sublist g.entries amount).nodup hwf

/-- `updateKey` preserves key uniqueness. -/
theorem nodup_keys_updateKey {κ α : Type} [DecidableEq κ]
    (l : List (κ × α)) (key : κ) (f : Option α → α)
    (hwf : (l.map Prod.fst).Nodup) :
    ((updateKey l key f).map Prod.fst).Nodup := by
  rw [keys_updateKey]
  by_cases hmem : key ∈ l.map Prod.fst
  · simpa [hmem] using hwf
  · simp only [hmem, if_false]
    exact List.Nodup.append hwf (List.nodup_singleton key)
      (fun a ha hb => hmem ((List.mem_singleton.mp hb) ▸ ha))

/-- `addWeight` preserves `WF`. -/
theorem WF_addWeight {g : UserRelationshipGraphMap} (hwf : g.WF)
    (key : EdgeKey) (amount : RelationshipStrength) :
    (g.addWeight key amount).WF :=
  nodup_keys_updateKey g.entries key _ hwf

/-- `insertEntry` preserves `WF`. -/
theorem WF_insertEntry {g : UserRelationshipGraphMap} (hwf : g.WF)
    (key : EdgeKey) (w : RelationshipStrength) :
    (g.insertEntry key w).WF :=
  nodup_keys_updateKey g.entries key _ hwf

end UserRelationshipGraphMap

/-! ## `InferenceState` (`src/social/inference.rs`) -/

/-- `const MESSAGE_HISTORY_COUNT: usize = 5;` -/
def MESSAGE_HISTORY_COUNT : Nat := 5

/-- `Instant::duration_since(..).as_secs()`: saturating difference in whole
seconds (an `Instant` earlier than the argument yields a zero duration). -/
def durationSinceSecs (later earlier : Nat) : Nat := later - earlier

/-- `pub struct InferenceState`: recent interactions in the channel,
newest first, at most `MESSAGE_HISTORY_COUNT` entries. -/
structure InferenceState where
  history : List Interaction
  deriving DecidableEq, Repr

namespace InferenceState

/-- `InferenceState::new()`. -/
def new : InferenceState := ⟨[]⟩

/-- The direct-signal rule: a primary target yields `Reaction` for reaction
interactions and `MessageDirectMention` for message interactions. -/
def directChanges (interaction : Interaction) : List RelationshipChange :=
  match interaction.target with
  | some target =>
    [{ source := interaction.source, target,
       reason := match interaction.what with
         | .Reaction => .Reaction
         | .Message => .MessageDirectMention }]
  | none => []

/-- The indirect-mention rule: one change per secondary target. -/
def indirectChanges (interaction : Interaction) : List RelationshipChange :=
  interaction.other_targets.map fun target =>
    { source := interaction.source, target,
      reason := .MessageIndirectMention }

/-- The adjacency (implicit reply) rule, evaluated on the history as it is
*before* the current interaction is pushed.  `last` is the newest history
entry; `previous` is the first entry behind it from a different author. -/
def adjacencyChanges : List Interaction → Interaction → List RelationshipChange
  | [], _ => []
  | last :: rest, interaction =>
    if last.source ≠ interaction.source ∧
        durationSinceSecs interaction.whenSecs last.whenSecs < 60 * 2 then
      match rest.find? fun i => i.source ≠ last.source with
      | some previous =>
        if 60 * 10 < durationSinceSecs last.whenSecs previous.whenSecs then
          [{ source := interaction.source, target := last.source,
             reason := .MessageAdjacency }]
        else []
      | none => []
    else []

/-- The binary-sequence rule, evaluated on the history *after* the current
interaction has been pushed to the front and truncated to
`MESSAGE_HISTORY_COUNT` entries.  `unique_sources` is a `HashSet` in the
source; which of the two members comes out of the iterator first is
unspecified, but the emitted change is the same either way (the target is
the member that is not the current source, see `binarySequence_target`). -/
def binarySequenceChanges (history : List Interaction)
    (interaction : Interaction) : List RelationshipChange :=
  match (history.map fun i => i.source).dedup with
  | [first, second] =>
    [{ source := interaction.source,
       target := if interaction.source = first then second else first,
       reason := .MessageBinarySequence }]
  | _ => []

/-- `InferenceState::infer`.  The source pushes changes into a `&mut Vec`
and mutates `self.history`; the model returns the pushed changes together
with the new state.  Reaction interactions return after the direct-signal
rule without touching the history.  The history push and truncation happen
after the adjacency rule and before the binary-sequence rule, and the
binary-sequence rule only runs when the post-push history has reached the
full `MESSAGE_HISTORY_COUNT` capacity. -/
def infer (state : InferenceState) (interaction : Interaction) :
    List RelationshipChange × InferenceState :=
  let changes := directChanges interaction
  if interaction.what ≠ InteractionType.Message then
    (changes, state)
  else
    let changes := changes ++ indirectChanges interaction
    let changes := changes ++ adjacencyChanges state.history interaction
    let pushed := interaction :: state.history
    if MESSAGE_HISTORY_COUNT ≤ pushed.length then
      let truncated := pushed.take MESSAGE_HISTORY_COUNT
      (changes ++ binarySequenceChanges truncated interaction, ⟨truncated⟩)
    else
      (changes, ⟨pushed⟩)

end InferenceState

/-! ## Serialization of `UserRelationshipGraphMap` (`src/social/graph.rs`)

On disk a graph is a flat JSON object mapping `"sourceId:targetId"` strings
to float weights.  The JSON layer itself (quoting, whitespace) is not
modelled; a file is the list of key/value pairs, with the key as its list
of characters and the value as the exact rational the decimal literal
denotes.  `serde_json` prints floats as shortest round-tripping decimals,
so the value round-trip is the identity here. -/

/-- A persisted graph file: the JSON object entries in order. -/
abbrev GraphFile := List (List Char × RelationshipStrength)

/-- The character of the decimal digit `d` (for `d < 10`). -/
def digitChar (d : Nat) : Char := Char.ofNat (48 + d)

/-- The numeral Rust's `Display` for `u64` prints: big-endian decimal
digits, a single `'0'` for zero. -/
def natToChars (n : Nat) : List Char :=
  if n = 0 then ['0'] else ((Nat.digits 10 n).map digitChar).reverse

/-- The numeric value of a digit character. -/
def charVal (c : Char) : Nat := c.toNat - 48

/-- Whether `c` is an ASCII decimal digit. -/
def isDigitChar (c : Char) : Prop := 48 ≤ c.toNat ∧ c.toNat ≤ 57

instance (c : Char) : Decidable (isDigitChar c) := by
  unfold isDigitChar; infer_instance

/-- `str::parse::<u64>`: an optional leading `'+'`, then one or more
decimal digits whose value fits in a `u64`; anything else is an error. -/
def parseU64 (chars : List Char) : Option Nat :=
  let digits := if chars.head? = some '+' then chars.tail else chars
  if digits = [] then none
  else if digits.all fun c => decide (isDigitChar c) then
    let n := digits.foldl (fun acc c => acc * 10 + charVal c) 0
    if n < 2 ^ 64 then some n else none
  else none

/-- The serialized form of an edge key:
`format!("{}:{}", k.0, k.1)` in `Serialize for UserRelationshipGraphMap`. -/
def serializeKey (source target : UserId) : List Char :=
  natToChars source ++ ':' :: natToChars target

/-- `Serialize for UserRelationshipGraphMap`: one file entry per map entry,
in map iteration order. -/
def UserRelationshipGraphMap.serialize (g : UserRelationshipGraphMap) :
    GraphFile :=
  g.entries.map fun p => (serializeKey p.1.1 p.1.2, p.2)

/-- `str::split(':')` on a character list. -/
def splitColon : List Char → List (List Char)
  | [] => [[]]
  | c :: rest =>
    if c = ':' then [] :: splitColon rest
    else
      match splitColon rest with
      | [] => [[c]]
      | s :: ss => (c :: s) :: ss

/-- Key parsing inside `UserRelationshipGraphMapVisitor::visit_map`: split
on `':'`, require exactly two components, parse each as a `u64`.  The ids
then go through `Id::new`, which requires them to be non-zero (a zero id
aborts; modelled as a parse failure). -/
def parseKey (key : List Char) : Option EdgeKey :=
  match splitColon key with
  | [a, b] =>
    match parseU64 a, parseU64 b with
    | some k1, some k2 =>
      if k1 = 0 ∨ k2 = 0 then none else some (k1, k2)
    | _, _ => none
  | _ => none

/-- The entry loop of `UserRelationshipGraphMapVisitor::visit_map`:
insert each parsed entry into the map, failing on the first bad key. -/
def visit_map : GraphFile → UserRelationshipGraphMap →
    Option UserRelationshipGraphMap
  | [], acc => some acc
  | (key, value) :: rest, acc =>
    match parseKey key with
    | some k => visit_map rest (acc.insertEntry k value)
    | none => none

/-- `Deserialize for UserRelationshipGraphMap` (driving the visitor over
the whole file, starting from an empty map). -/
def UserRelationshipGraphMap.deserialize (file : GraphFile) :
    Option UserRelationshipGraphMap :=
  visit_map file UserRelationshipGraphMap.new

/-- `UserRelationshipGraphMap::save_to_path`: an empty graph performs no
write at all (the file, present or not, is left as it was); otherwise the
serialized graph replaces the file contents.  The argument and result are
the state of the file at that path. -/
def UserRelationshipGraphMap.save_to_path (g : UserRelationshipGraphMap)
    (file : Option GraphFile) : Option GraphFile :=
  if g.entries = [] then file else some g.serialize

/-- `UserRelationshipGraphMap::new_from_path`: reading a missing file is an
error (`NotFound`), otherwise the contents are deserialized. -/
def UserRelationshipGraphMap.new_from_path (file : Option GraphFile) :
    Option UserRelationshipGraphMap :=
  file.bind UserRelationshipGraphMap.deserialize

/-! ## `SocialGraph` (`src/social/graph.rs`)

The outer `HashMap<Id<GuildMarker>, HashMap<Id<ChannelMarker>, UserRelationshipGraphMap>>`
is modelled as a function from guild ids to an optional per-guild channel
association list; the `state` map likewise.  The optional data directory is
modelled as the mapping from `(guild, channel)` to the file at
`graph_data_file_name(data_dir, guild, channel)` (see `GraphFile`), so disk
reads in `get_graph` and writes in `apply` stay inside the model. -/

/-- The contents of the data directory: the file (if any) for each
`(guild, channel)` pair's deterministic path. -/
abbrev DataDir := GuildId × ChannelId → Option GraphFile

/-- `pub struct SocialGraph`. -/
structure SocialGraph where
  data_dir : Option DataDir
  graph : GuildId → Option (List (ChannelId × UserRelationshipGraphMap))
  state : GuildId × ChannelId → Option InferenceState

namespace SocialGraph

/-- `SocialGraph::new`. -/
def new (data_dir : Option DataDir) : SocialGraph :=
  { data_dir, graph := fun _ => none, state := fun _ => none }

/-- The channel graph currently stored for `(guild_id, channel_id)`. -/
def channelGraph (s : SocialGraph) (guild_id : GuildId)
    (channel_id : ChannelId) : Option UserRelationshipGraphMap :=
  (s.graph guild_id).bind fun channels => lookupKey channels channel_id

/-- The on-miss load in `get_graph`: a missing file, or one that fails to
parse (logged), yields a fresh empty graph. -/
def loadOrNew (data_dir : Option DataDir) (guild_id : GuildId)
    (channel_id : ChannelId) : UserRelationshipGraphMap :=
  match data_dir with
  | none => UserRelationshipGraphMap.new
  | some dir =>
    match dir (guild_id, channel_id) with
    | none => UserRelationshipGraphMap.new
    | some file =>
      (UserRelationshipGraphMap.deserialize file).getD UserRelationshipGraphMap.new

/-- `SocialGraph::infer`: run inference with the `(guild, channel)` state,
creating it when absent, and store the updated state back. -/
def infer (s : SocialGraph) (interaction : Interaction) :
    List RelationshipChange × SocialGraph :=
  let key := (interaction.guild, interaction.channel)
  let st := (s.state key).getD InferenceState.new
  let (changes, st') := st.infer interaction
  (changes,
   { s with state := fun k => if k = key then some st' else s.state k })

/-- `SocialGraph::apply`.

1. For a human (non-bot) message interaction, decay every channel graph
   already present for the guild by `RELATIONSHIP_DECAY_GLOBAL`.
2. `get_graph` the interaction's own channel (the entry just decayed in
   step 1 if it existed, otherwise loaded from disk or fresh) and decay it
   by `RELATIONSHIP_DECAY`.
3. Fold the changes into that graph.
4. When a data directory is configured, save the resulting graph to its
   per-`(guild, channel)` path (an empty graph writes nothing). -/
def apply (s : SocialGraph) (interaction : Interaction)
    (changes : List RelationshipChange) : SocialGraph :=
  let guild_id := interaction.guild
  let channel_id := interaction.channel
  let channels0 := (s.graph guild_id).getD []
  let channels1 :=
    if interaction.what = InteractionType.Message ∧ interaction.source_is_bot = false then
      channels0.map fun p => (p.1, p.2.decay RELATIONSHIP_DECAY_GLOBAL)
    else channels0
  let g0 := match lookupKey channels1 channel_id with
    | some g => g
    | none => loadOrNew s.data_dir guild_id channel_id
  let g1 := g0.decay RELATIONSHIP_DECAY
  let g2 := g1.applyChanges changes
  { s with
    graph := fun g =>
      if g = guild_id then some (updateKey channels1 channel_id fun _ => g2)
      else s.graph g,
    data_dir := s.data_dir.map fun dir => fun k =>
      if k = (guild_id, channel_id) then g2.save_to_path (dir k) else dir k }

/-- `SocialGraph::build_guild_graph`: `None` when the guild id is absent
from the outer map; otherwise every channel graph's entries are folded into
a fresh guild graph, summing weights per `(source, target)` key. -/
def build_guild_graph (s : SocialGraph) (guild_id : GuildId) :
    Option UserRelationshipGraphMap :=
  (s.graph guild_id).map fun channels =>
    channels.foldl
      (fun guild_graph p =>
        p.2.entries.foldl (fun gg e => gg.addWeight e.1 e.2) guild_graph)
      UserRelationshipGraphMap.new

/-- `SocialGraph::remove_guild`: drop the guild's channel map, and drop the
inference state of exactly the channels that were in it. -/
def remove_guild (s : SocialGraph) (guild_id : GuildId) : SocialGraph :=
  let channels := s.graph guild_id
  { s with
    graph := fun g => if g = guild_id then none else s.graph g,
    state := fun k =>
      if k.1 = guild_id ∧ k.2 ∈ (channels.getD []).map Prod.fst then none
      else s.state k }

/-- `SocialGraph::remove_channel`: drop the `(guild, channel)` inference
state, and remove the channel's graph from the guild map when present. -/
def remove_channel (s : SocialGraph) (guild_id : GuildId)
    (channel_id : ChannelId) : SocialGraph :=
  { s with
    state := fun k => if k = (guild_id, channel_id) then none else s.state k,
    graph := fun g =>
      if g = guild_id then
        (s.graph g).map fun channels => channels.filter fun p => p.1 ≠ channel_id
      else s.graph g }

end SocialGraph

/-! ## Interaction extraction (`src/social/inference.rs`)

`parse_direct_mention` works on byte indices in the source; all the
delimiters it searches for (`"\n>"`, `'\n'`, `"<@"`, `'!'`, `'>'`) are
single-byte ASCII, so the character-list model below computes the same
suffixes and the same id slice. -/

/-- `message.rfind("\n>")`: index of the last occurrence of the
two-character pattern (an occurrence later in the tail wins over one at
the head). -/
def rfindNewlineQuote : List Char → Option Nat
  | [] => none
  | c :: rest =>
    match rfindNewlineQuote rest with
    | some i => some (i + 1)
    | none => if c = '\n' ∧ rest.head? = some '>' then some 0 else none

/-- Whether the two-character pattern `"\n>"` occurs anywhere in the list
(used to characterize `rfind`). -/
def hasQuotePair : List Char → Bool
  | [] => false
  | c :: rest => (decide (c = '\n') && decide (rest.head? = some '>')) || hasQuotePair rest

/-- The final stage of `parse_direct_mention`: a user mention at the very
start of its argument (`starts_with("<@")`, optional `'!'`, id up to the
first `'>'`, `Id::new_checked` rejecting zero). -/
def startMention (message : List Char) : Option UserId :=
  match message with
  | '<' :: '@' :: rest =>
    let afterBang := match rest with
      | '!' :: r => r
      | r => r
    match afterBang.findIdx? fun c => c = '>' with
    | some endIdx =>
      (parseU64 (afterBang.take endIdx)).bind fun n =>
        if n = 0 then none else some n
    | none => none
  | _ => none

/-- The first `let message = ...` rebinding of `parse_direct_mention`:
cut the content to just after the last `"\n>"` occurrence, if any. -/
def cutLastQuote (message : List Char) : List Char :=
  match rfindNewlineQuote message with
  | some v => message.drop (v + 2)
  | none => message

/-- The second `let message = ...` rebinding of `parse_direct_mention`:
cut past the first newline, if any. -/
def cutFirstLine (message : List Char) : List Char :=
  match message.findIdx? fun c => c = '\n' with
  | some v => message.drop (v + 1)
  | none => message

/-- `fn parse_direct_mention(message: &str) -> Option<Id<UserMarker>>`:
cut the content to just after the last `"\n>"` occurrence (if any), then
past the first newline of that remainder (if any), then parse a mention at
the very start of what is left. -/
def parse_direct_mention (message : List Char) : Option UserId :=
  startMention (cutFirstLine (cutLastQuote message))

/-- The fields of `twilight_model::channel::Message` that
`Interaction::new_from_message` reads.  `mentions` is the ids of the
`Mention` values on the message. -/
structure Message where
  guild_id : Option GuildId
  channel_id : ChannelId
  author_id : UserId
  author_bot : Bool
  content : List Char
  mentions : List UserId
  deriving DecidableEq, Repr

/-- `pub struct CachedMessage` (`src/cache.rs`): the projection the
extractor reads (`kind` is not consulted by `new_from_message`). -/
structure CachedMessage where
  author_id : UserId
  deriving DecidableEq, Repr

/-- `Interaction::new_from_message`.  `now` stands for the
`Instant::now()` call; `referenced_message` is the cache-resolved author of
the replied-to message, when any.  A message outside a guild is an error. -/
def Interaction.new_from_message (now : Nat) (message : Message)
    (referenced_message : Option CachedMessage) : Option Interaction :=
  match message.guild_id with
  | none => none
  | some guild_id =>
    let reply_to := (parse_direct_mention message.content).or
      (referenced_message.map fun m => m.author_id)
    let user_mentions := message.mentions.filter fun u => ¬some u = reply_to
    some
      { what := InteractionType.Message,
        whenSecs := now,
        guild := guild_id,
        channel := message.channel_id,
        source := message.author_id,
        source_is_bot := message.author_bot,
        target := reply_to,
        other_targets := user_mentions }

/-! ## `Cache` (`src/cache.rs`)

Only the parts the claims are about are modelled: the `Ready`-event guild
retention, and the chunking and partial-result collection of
`bulk_request_members`. -/

/-- The guild-partition retention in `Cache::update` for `Event::Ready`:
`self.guilds.lock().retain(|guild_id, _| ((guild_id.get() >> 22) % shard.total()) != shard.number())`.
The per-guild cache bundles carry no information relevant to the claims,
so the map is modelled by its key list. -/
def Cache.readyRetainGuilds (shardNumber shardTotal : Nat)
    (guilds : List GuildId) : List GuildId :=
  guilds.filter fun guild_id => (guild_id >>> 22) % shardTotal ≠ shardNumber

/-- Recursion core of `chunksOf`: the fuel (first list argument's length at
the top call) only bounds the recursion depth, keeping the definition
structural. -/
def chunksOfAux (n : Nat) : Nat → List UserId → List (List UserId)
  | _, [] => []
  | 0, _ => []
  | fuel + 1, l => l.take n :: chunksOfAux n fuel (l.drop n)

/-- `user_ids.chunks(100)` (for any positive chunk size `n`): consecutive
chunks of `n` elements, the last chunk possibly shorter. -/
def chunksOf (n : Nat) (l : List UserId) : List (List UserId) :=
  chunksOfAux n l.length l

/-- One gateway `MemberChunk` response: the members Discord resolved
(written into the cache unconditionally on arrival) and the echoed
`not_found` id list. -/
structure MemberChunkResponse where
  resolved : List UserId
  not_found : List UserId
  deriving DecidableEq, Repr

/-- `Cache::bulk_request_members`, abstracted over delivery: `user_ids` is
chunked into consecutive chunks of at most 100 ids, the chunk commands are
tagged with the (pre-drawn, random) `nonces` in order, and `respond`
says which nonces receive a chunk response before the overall timeout.
The function's `Ok` value is the concatenation of the `not_found` lists of
the chunks that responded; on timeout the remaining pending entries are
purged, which the claims observe only through the returned lists, so the
purge leaves no trace in the model's output. -/
def Cache.bulk_request_members (user_ids : List UserId)
    (nonces : List Nat) (respond : Nat → Option MemberChunkResponse) :
    List UserId :=
  let requests := (chunksOf 100 user_ids).zip nonces
  (requests.filterMap fun r => respond r.2).flatMap fun r => r.not_found

/-- The member entries added to the cache by the `Event::MemberChunk`
handler across the responses that arrived for this bulk request. -/
def Cache.bulkResolvedMembers (user_ids : List UserId)
    (nonces : List Nat) (respond : Nat → Option MemberChunkResponse) :
    List UserId :=
  let requests := (chunksOf 100 user_ids).zip nonces
  (requests.filterMap fun r => respond r.2).flatMap fun r => r.resolved

/-! ## Claim C3: `Ready`-event shard rebalance -/

/-- Claim C3, counterexample.  The claim says a `Ready` event removes
exactly the guild partitions that no longer belong to this process and
retains the ones that do.  With a single shard (`number = 0`, `total = 1`)
every guild belongs to this process — guild `4194304` hashes to
`(4194304 >> 22) % 1 = 0 = shard.number()` — yet `Cache::update` removes
it: the `retain` predicate keeps a guild exactly when its hash does NOT
equal the ready shard's number. -/
theorem c3_counterexample :
    (4194304 >>> 22) % 1 = 0 ∧
      Cache.readyRetainGuilds 0 1 [4194304] = [] := by
  decide

/-- Claim C3 (amended): for every `Ready` event carrying shard information,
`Cache::update` retains exactly the guild partitions whose id, hashed
against the shard topology (`id >> 22` modulo the total shard count), does
NOT equal the ready shard's number — i.e. it removes exactly the guilds
that DO belong to the shard announcing readiness (whose guilds are about
to be re-delivered), keeping the partitions of all other shards. -/
theorem c3_ready_removes_own_shard_guilds (shardNumber shardTotal : Nat)
    (guilds : List GuildId) (guild_id : GuildId) :
    guild_id ∈ Cache.readyRetainGuilds shardNumber shardTotal guilds ↔
      guild_id ∈ guilds ∧ (guild_id >>> 22) % shardTotal ≠ shardNumber := by
  simp [Cache.readyRetainGuilds, List.mem_filter]

/-! ## Decomposing the changes emitted by `InferenceState::infer` -/

/-- The sub-list of changes carrying a given reason. -/
def changesWithReason (changes : List RelationshipChange)
    (reason : RelationshipChangeReason) : List RelationshipChange :=
  changes.filter fun c => c.reason = reason

@[simp] theorem changesWithReason_nil (reason : RelationshipChangeReason) :
    changesWithReason [] reason = [] := rfl

@[simp] theorem changesWithReason_append (a b : List RelationshipChange)
    (reason : RelationshipChangeReason) :
    changesWithReason (a ++ b) reason =
      changesWithReason a reason ++ changesWithReason b reason :=
  List.filter_append _ _

/-- Filtering a singleton by its own reason. -/
theorem changesWithReason_singleton_self (c : RelationshipChange) :
    changesWithReason [c] c.reason = [c] := by
  simp [changesWithReason]

/-- Filtering a singleton by a different reason. -/
theorem changesWithReason_singleton_other (c : RelationshipChange)
    (reason : RelationshipChangeReason) (h : c.reason ≠ reason) :
    changesWithReason [c] reason = [] := by
  simp [changesWithReason, h]

namespace InferenceState

/-- For a message interaction, `infer` emits, in order, the direct-signal,
indirect-mention, adjacency and binary-sequence changes, and replaces the
history by the pushed-and-truncated one. -/
theorem infer_message (st : InferenceState) (i : Interaction)
    (h : i.what = InteractionType.Message) :
    st.infer i =
      (directChanges i ++ indirectChanges i ++ adjacencyChanges st.history i ++
        (if MESSAGE_HISTORY_COUNT ≤ (i :: st.history).length then
          binarySequenceChanges ((i :: st.history).take MESSAGE_HISTORY_COUNT) i
         else []),
       ⟨(i :: st.history).take MESSAGE_HISTORY_COUNT⟩) := by
  unfold infer
  rw [if_neg (by simp [h])]
  simp only [List.length_cons]
  by_cases hlen : MESSAGE_HISTORY_COUNT ≤ st.history.length + 1
  · rw [if_pos hlen, if_pos hlen]
  · rw [if_neg hlen]
    have htake : (i :: st.history).take MESSAGE_HISTORY_COUNT = i :: st.history :=
      List.take_of_length_le (by simp; omega)
    simp [htake, hlen]

@[simp] theorem changesWithReason_direct (i : Interaction)
    (reason : RelationshipChangeReason)
    (h1 : reason ≠ RelationshipChangeReason.Reaction)
    (h2 : reason ≠ RelationshipChangeReason.MessageDirectMention) :
    changesWithReason (directChanges i) reason = [] := by
  unfold directChanges
  cases htarget : i.target with
  | none => rfl
  | some t =>
    cases hwhat : i.what
    · exact changesWithReason_singleton_other _ _ (Ne.symm h2)
    · exact changesWithReason_singleton_other _ _ (Ne.symm h1)

@[simp] theorem changesWithReason_indirect (i : Interaction)
    (reason : RelationshipChangeReason)
    (h : reason ≠ RelationshipChangeReason.MessageIndirectMention) :
    changesWithReason (indirectChanges i) reason = [] := by
  unfold indirectChanges changesWithReason
  rw [List.filter_eq_nil_iff]
  intro c hc
  obtain ⟨t, _, rfl⟩ := List.mem_map.mp hc
  simpa using Ne.symm h

@[simp] theorem changesWithReason_adjacency_self (history : List Interaction)
    (i : Interaction) :
    changesWithReason (adjacencyChanges history i)
      RelationshipChangeReason.MessageAdjacency = adjacencyChanges history i := by
  cases history with
  | nil => rfl
  | cons last rest =>
    simp only [adjacencyChanges]
    repeat' split
    all_goals first
      | exact changesWithReason_singleton_self _
      | rfl

@[simp] theorem changesWithReason_adjacency_other (history : List Interaction)
    (i : Interaction) (reason : RelationshipChangeReason)
    (h : reason ≠ RelationshipChangeReason.MessageAdjacency) :
    changesWithReason (adjacencyChanges history i) reason = [] := by
  cases history with
  | nil => rfl
  | cons last rest =>
    simp only [adjacencyChanges]
    repeat' split
    all_goals first
      | exact changesWithReason_singleton_other _ _ (Ne.symm h)
      | rfl

@[simp] theorem changesWithReason_binary_self (history : List Interaction)
    (i : Interaction) :
    changesWithReason (binarySequenceChanges history i)
      RelationshipChangeReason.MessageBinarySequence =
      binarySequenceChanges history i := by
  unfold binarySequenceChanges
  cases hdedup : (history.map fun j => j.source).dedup with
  | nil => rfl
  | cons first t =>
    cases t with
    | nil => rfl
    | cons second t2 =>
      cases t2
      · exact changesWithReason_singleton_self _
      · rfl

@[simp] theorem changesWithReason_binary_other (history : List Interaction)
    (i : Interaction) (reason : RelationshipChangeReason)
    (h : reason ≠ RelationshipChangeReason.MessageBinarySequence) :
    changesWithReason (binarySequenceChanges history i) reason = [] := by
  unfold binarySequenceChanges
  cases hdedup : (history.map fun j => j.source).dedup with
  | nil => rfl
  | cons first t =>
    cases t with
    | nil => rfl
    | cons second t2 =>
      cases t2
      · exact changesWithReason_singleton_other _ _ (Ne.symm h)
      · rfl

/-- The adjacency rule on a non-empty history, re-associated into a single
guard: the change is emitted exactly when the author differs, the reply is
quick, and the first prior entry by a different author is old enough. -/
theorem adjacencyChanges_cons (last : Interaction) (rest : List Interaction)
    (i : Interaction) :
    adjacencyChanges (last :: rest) i =
      match rest.find? fun p => p.source ≠ last.source with
      | some previous =>
        if last.source ≠ i.source ∧
            durationSinceSecs i.whenSecs last.whenSecs < 120 ∧
            600 < durationSinceSecs last.whenSecs previous.whenSecs then
          [{ source := i.source, target := last.source,
             reason := RelationshipChangeReason.MessageAdjacency }]
        else []
      | none => [] := by
  simp only [adjacencyChanges]
  rcases hfind : rest.find? fun j => j.source ≠ last.source with _ | previous
  · rw [hfind]
    split <;> rfl
  · rw [hfind]
    by_cases hsrc : last.source ≠ i.source ∧
        durationSinceSecs i.whenSecs last.whenSecs < 60 * 2
    · by_cases hgap : 60 * 10 < durationSinceSecs last.whenSecs previous.whenSecs
      · have hcond : last.source ≠ i.source ∧
            durationSinceSecs i.whenSecs last.whenSecs < 120 ∧
            600 < durationSinceSecs last.whenSecs previous.whenSecs :=
          ⟨hsrc.1, by omega, by omega⟩
        simp only [if_pos hsrc, if_pos hgap, if_pos hcond]
      · have hcond : ¬(last.source ≠ i.source ∧
            durationSinceSecs i.whenSecs last.whenSecs < 120 ∧
            600 < durationSinceSecs last.whenSecs previous.whenSecs) := by
          rintro ⟨-, -, hc⟩
          exact hgap (by omega)
        simp only [if_pos hsrc, if_neg hgap, if_neg hcond]
    · have hcond : ¬(last.source ≠ i.source ∧
          durationSinceSecs i.whenSecs last.whenSecs < 120 ∧
          600 < durationSinceSecs last.whenSecs previous.whenSecs) := by
        rintro ⟨ha, hb, -⟩
        exact hsrc ⟨ha, by omega⟩
      simp only [if_neg hsrc, if_neg hcond]

/-- The binary-sequence contribution of a message inference is empty when
filtered by any other reason. -/
theorem changesWithReason_infer_tail (st : InferenceState) (i : Interaction)
    (reason : RelationshipChangeReason)
    (h : reason ≠ RelationshipChangeReason.MessageBinarySequence) :
    changesWithReason
      (if MESSAGE_HISTORY_COUNT ≤ (i :: st.history).length then
        binarySequenceChanges ((i :: st.history).take MESSAGE_HISTORY_COUNT) i
       else []) reason = [] := by
  split
  · exact changesWithReason_binary_other _ _ _ h
  · rfl

end InferenceState

/-! ## Claim C4: the adjacency (implicit reply) heuristic -/

/-- Claim C4.  For every message interaction inferred against a history
state whose most recent entry is `last`: exactly one `MessageAdjacency`
change (from the interaction's source to `last.source`) is emitted iff
`last.source` differs from the source, the interaction arrives less than
120 seconds after `last`, and the first earlier entry `previous` whose
author differs from `last.source` exists and satisfies
`last.when - previous.when > 600` seconds; otherwise no adjacency change is
emitted (in particular on an empty history).  `MessageAdjacency` carries
strength `0.5`.  The spec's scenario — `C` speaks at `t = 300`, `A`
mentions `B` at `t = 1000` (700s later), `B` replies plainly at `t = 1090`
— yields exactly `[DirectMention(A -> B)]` for the second message and
exactly `[Adjacency(B -> A)]` for the third. -/
theorem c4_adjacency_rule :
    (∀ (st : InferenceState) (i last : Interaction) (rest : List Interaction),
      i.what = InteractionType.Message → st.history = last :: rest →
      changesWithReason (st.infer i).1 RelationshipChangeReason.MessageAdjacency =
        match rest.find? fun p => p.source ≠ last.source with
        | some previous =>
          if last.source ≠ i.source ∧
              durationSinceSecs i.whenSecs last.whenSecs < 120 ∧
              600 < durationSinceSecs last.whenSecs previous.whenSecs then
            [{ source := i.source, target := last.source,
               reason := RelationshipChangeReason.MessageAdjacency }]
          else []
        | none => []) ∧
    (∀ (st : InferenceState) (i : Interaction),
      i.what = InteractionType.Message → st.history = [] →
      changesWithReason (st.infer i).1 RelationshipChangeReason.MessageAdjacency = []) ∧
    RelationshipChangeReason.get_change_strength
      RelationshipChangeReason.MessageAdjacency = 1/2 ∧
    ((InferenceState.infer
        (InferenceState.infer (InferenceState.mk [])
          ⟨InteractionType.Message, 300, 1, 1, 3, false, none, []⟩).2
        ⟨InteractionType.Message, 1000, 1, 1, 1, false, some 2, []⟩).1 =
      [⟨1, 2, RelationshipChangeReason.MessageDirectMention⟩] ∧
     (InferenceState.infer
        (InferenceState.infer
          (InferenceState.infer (InferenceState.mk [])
            ⟨InteractionType.Message, 300, 1, 1, 3, false, none, []⟩).2
          ⟨InteractionType.Message, 1000, 1, 1, 1, false, some 2, []⟩).2
        ⟨InteractionType.Message, 1090, 1, 1, 2, false, none, []⟩).1 =
      [⟨2, 1, RelationshipChangeReason.MessageAdjacency⟩]) := by
  have hdir := fun (j : Interaction) =>
    InferenceState.changesWithReason_direct j
      RelationshipChangeReason.MessageAdjacency (by decide) (by decide)
  have hind := fun (j : Interaction) =>
    InferenceState.changesWithReason_indirect j
      RelationshipChangeReason.MessageAdjacency (by decide)
  have htail := fun (s : InferenceState) (j : Interaction) =>
    InferenceState.changesWithReason_infer_tail s j
      RelationshipChangeReason.MessageAdjacency (by decide)
  refine ⟨?_, ?_, rfl, by decide, by decide⟩
  · intro st i last rest hmsg hhist
    rw [st.infer_message i hmsg]
    simp only [changesWithReason_append, hdir, hind, htail,
      InferenceState.changesWithReason_adjacency_self,
      List.nil_append, List.append_nil]
    rw [hhist, InferenceState.adjacencyChanges_cons]
  · intro st i hmsg hhist
    rw [st.infer_message i hmsg]
    simp only [changesWithReason_append, hdir, hind, htail,
      InferenceState.changesWithReason_adjacency_self,
      List.nil_append, List.append_nil]
    rw [hhist]
    rfl

/-- Claim C4, witness: the adjacency characterization applied to the
concrete scenario state (`A` mentioned `B` 700 seconds after `C` spoke;
`B` replies plainly 90 seconds later) yields exactly one adjacency change
`B -> A`. -/
theorem c4_adjacency_rule_witness :
    changesWithReason
      ((InferenceState.mk
          [⟨InteractionType.Message, 1000, 1, 1, 1, false, some 2, []⟩,
           ⟨InteractionType.Message, 300, 1, 1, 3, false, none, []⟩]).infer
        ⟨InteractionType.Message, 1090, 1, 1, 2, false, none, []⟩).1
      RelationshipChangeReason.MessageAdjacency =
      [⟨2, 1, RelationshipChangeReason.MessageAdjacency⟩] :=
  (c4_adjacency_rule.1 _
    ⟨InteractionType.Message, 1090, 1, 1, 2, false, none, []⟩
    ⟨InteractionType.Message, 1000, 1, 1, 1, false, some 2, []⟩
    [⟨InteractionType.Message, 300, 1, 1, 3, false, none, []⟩]
    rfl rfl).trans (by decide)

/-! ## Claim C5: the binary-sequence heuristic -/

/-- Running `infer` over a sequence of interactions from a starting state,
collecting each interaction's emitted changes. -/
def inferSeq (st : InferenceState) : List Interaction →
    List (List RelationshipChange)
  | [] => []
  | i :: rest =>
    let r := st.infer i
    r.1 :: inferSeq r.2 rest

namespace InferenceState

/-- No binary-sequence change when the window does not have exactly two
distinct sources. -/
theorem binarySequenceChanges_ne_two (history : List Interaction)
    (i : Interaction)
    (h : ((history.map fun j => j.source).dedup).length ≠ 2) :
    binarySequenceChanges history i = [] := by
  unfold binarySequenceChanges
  rcases hd : (history.map fun j => j.source).dedup with _ | ⟨f, _ | ⟨s, _ | ⟨u, t⟩⟩⟩
  · rw [hd]
  · rw [hd]
  · exact absurd (by simp [hd]) h
  · rw [hd]

/-- The binary-sequence change emitted when the window has exactly two
distinct sources. -/
theorem binarySequenceChanges_eq_two (history : List Interaction)
    (i : Interaction) (f s : UserId)
    (h : (history.map fun j => j.source).dedup = [f, s]) :
    binarySequenceChanges history i =
      [{ source := i.source, target := if i.source = f then s else f,
         reason := RelationshipChangeReason.MessageBinarySequence }] := by
  unfold binarySequenceChanges
  rw [h]

end InferenceState

/-- Claim C5.  For a message interaction, `infer` emits a
`MessageBinarySequence` change (strength `0.5`, from the interaction's
source to the other member of the pair) iff, after the interaction is
pushed to the front of the history and the history is truncated to
`MESSAGE_HISTORY_COUNT = 5` entries, the history holds its full 5-entry
capacity and the distinct sources across the window number exactly two;
otherwise no binary-sequence change is emitted.  In particular five
consecutive messages strictly alternating between users `1` and `2`,
starting from an empty history, produce exactly one binary-sequence
change, emitted on the fifth, targeting the user other than the fifth
message's source. -/
theorem c5_binary_sequence :
    (∀ (st : InferenceState) (i : Interaction),
      i.what = InteractionType.Message →
      (((i :: st.history).take MESSAGE_HISTORY_COUNT).length = MESSAGE_HISTORY_COUNT ∧
          (((i :: st.history).take MESSAGE_HISTORY_COUNT).map fun j => j.source).toFinset.card = 2 →
        ∃ t, t ∈ ((i :: st.history).take MESSAGE_HISTORY_COUNT).map (fun j => j.source) ∧
          t ≠ i.source ∧
          changesWithReason (st.infer i).1
            RelationshipChangeReason.MessageBinarySequence =
            [{ source := i.source, target := t,
               reason := RelationshipChangeReason.MessageBinarySequence }]) ∧
      (¬(((i :: st.history).take MESSAGE_HISTORY_COUNT).length = MESSAGE_HISTORY_COUNT ∧
          (((i :: st.history).take MESSAGE_HISTORY_COUNT).map fun j => j.source).toFinset.card = 2) →
        changesWithReason (st.infer i).1
          RelationshipChangeReason.MessageBinarySequence = [])) ∧
    RelationshipChangeReason.get_change_strength
      RelationshipChangeReason.MessageBinarySequence = 1/2 ∧
    inferSeq (InferenceState.mk [])
      [⟨InteractionType.Message, 0, 1, 1, 1, false, none, []⟩,
       ⟨InteractionType.Message, 10, 1, 1, 2, false, none, []⟩,
       ⟨InteractionType.Message, 20, 1, 1, 1, false, none, []⟩,
       ⟨InteractionType.Message, 30, 1, 1, 2, false, none, []⟩,
       ⟨InteractionType.Message, 40, 1, 1, 1, false, none, []⟩] =
      [[], [], [], [],
       [{ source := 1, target := 2,
          reason := RelationshipChangeReason.MessageBinarySequence }]] := by
  refine ⟨?_, rfl, by decide⟩
  intro st i hmsg
  have hdir := InferenceState.changesWithReason_direct i
    RelationshipChangeReason.MessageBinarySequence (by decide) (by decide)
  have hind := InferenceState.changesWithReason_indirect i
    RelationshipChangeReason.MessageBinarySequence (by decide)
  have hadj := InferenceState.changesWithReason_adjacency_other st.history i
    RelationshipChangeReason.MessageBinarySequence (by decide)
  have hcard :
      (((i :: st.history).take MESSAGE_HISTORY_COUNT).map fun j => j.source).toFinset.card =
        ((((i :: st.history).take MESSAGE_HISTORY_COUNT).map fun j => j.source).dedup).length :=
    List.card_toFinset _
  by_cases hlen : MESSAGE_HISTORY_COUNT ≤ (i :: st.history).length
  · have htakelen :
        ((i :: st.history).take MESSAGE_HISTORY_COUNT).length = MESSAGE_HISTORY_COUNT := by
      rw [List.length_take]
      omega
    rw [st.infer_message i hmsg]
    simp only [changesWithReason_append, hdir, hind, hadj, if_pos hlen,
      InferenceState.changesWithReason_binary_self, List.nil_append, List.append_nil]
    constructor
    · rintro ⟨-, hc2⟩
      rw [hcard] at hc2
      rcases hdedup : (((i :: st.history).take MESSAGE_HISTORY_COUNT).map fun j => j.source).dedup
        with _ | ⟨f, _ | ⟨s, _ | ⟨u, t⟩⟩⟩ <;> rw [hdedup] at hc2 <;> simp at hc2
      have hnodup : ([f, s] : List UserId).Nodup := by
        rw [← hdedup]; exact List.nodup_dedup _
      have hfs : f ≠ s := by
        simp only [List.nodup_cons, List.mem_singleton, List.mem_cons,
          List.not_mem_nil, or_false] at hnodup
        exact hnodup.1
      refine ⟨if i.source = f then s else f, ?_, ?_, ?_⟩
      · have hfmem : f ∈ (((i :: st.history).take MESSAGE_HISTORY_COUNT).map fun j => j.source) := by
          rw [← List.mem_dedup, hdedup]; simp
        have hsmem : s ∈ (((i :: st.history).take MESSAGE_HISTORY_COUNT).map fun j => j.source) := by
          rw [← List.mem_dedup, hdedup]; simp
        split <;> assumption
      · split
        · rename_i hf
          rw [hf]; exact fun hc => hfs hc.symm
        · rename_i hf
          exact fun hc => hf hc.symm
      · exact InferenceState.binarySequenceChanges_eq_two _ _ f s hdedup
    · intro hnot
      have hc2 : (((i :: st.history).take MESSAGE_HISTORY_COUNT).map fun j => j.source).toFinset.card ≠ 2 := by
        intro hc
        exact hnot ⟨htakelen, hc⟩
      rw [hcard] at hc2
      exact InferenceState.binarySequenceChanges_ne_two _ _ hc2
  · have htake : (i :: st.history).take MESSAGE_HISTORY_COUNT = i :: st.history :=
      List.take_of_length_le (by omega)
    have hlen2 : ((i :: st.history).take MESSAGE_HISTORY_COUNT).length ≠ MESSAGE_HISTORY_COUNT := by
      rw [htake]
      simp only [List.length_cons]
      simp only [List.length_cons] at hlen
      omega
    constructor
    · intro hc
      exact absurd hc.1 hlen2
    · intro hnot
      rw [st.infer_message i hmsg]
      simp only [changesWithReason_append, hdir, hind, hadj, if_neg hlen,
        changesWithReason_nil, List.nil_append, List.append_nil]

/-- Claim C5, witness: a window of five messages alternating between users
`2` and `1` (four in the history, user `1`'s message arriving fifth) emits
a binary-sequence change from user `1` to the other member of the pair. -/
theorem c5_binary_sequence_witness :
    ∃ t, t ∈ ((⟨InteractionType.Message, 40, 1, 1, 1, false, none, []⟩ ::
        (InferenceState.mk
          [⟨InteractionType.Message, 30, 1, 1, 2, false, none, []⟩,
           ⟨InteractionType.Message, 20, 1, 1, 1, false, none, []⟩,
           ⟨InteractionType.Message, 10, 1, 1, 2, false, none, []⟩,
           ⟨InteractionType.Message, 0, 1, 1, 1, false, none, []⟩]).history).take
          MESSAGE_HISTORY_COUNT).map (fun j => j.source) ∧
      t ≠ (⟨InteractionType.Message, 40, 1, 1, 1, false, none, []⟩ : Interaction).source ∧
      changesWithReason
        ((InferenceState.mk
          [⟨InteractionType.Message, 30, 1, 1, 2, false, none, []⟩,
           ⟨InteractionType.Message, 20, 1, 1, 1, false, none, []⟩,
           ⟨InteractionType.Message, 10, 1, 1, 2, false, none, []⟩,
           ⟨InteractionType.Message, 0, 1, 1, 1, false, none, []⟩]).infer
          ⟨InteractionType.Message, 40, 1, 1, 1, false, none, []⟩).1
        RelationshipChangeReason.MessageBinarySequence =
        [{ source := (⟨InteractionType.Message, 40, 1, 1, 1, false, none, []⟩ : Interaction).source,
           target := t,
           reason := RelationshipChangeReason.MessageBinarySequence }] :=
  (c5_binary_sequence.1
    (InferenceState.mk
      [⟨InteractionType.Message, 30, 1, 1, 2, false, none, []⟩,
       ⟨InteractionType.Message, 20, 1, 1, 1, false, none, []⟩,
       ⟨InteractionType.Message, 10, 1, 1, 2, false, none, []⟩,
       ⟨InteractionType.Message, 0, 1, 1, 1, false, none, []⟩])
    ⟨InteractionType.Message, 40, 1, 1, 1, false, none, []⟩
    rfl).1 (by decide)

/-! ## Claim C6: primary/secondary target extraction from a message -/

/-- A list without the `"\n>"` pattern has no `rfind` hit. -/
theorem rfindNewlineQuote_eq_none (l : List Char)
    (h : hasQuotePair l = false) : rfindNewlineQuote l = none := by
  induction l with
  | nil => rfl
  | cons c rest ih =>
    simp only [hasQuotePair, Bool.or_eq_false_iff] at h
    simp only [rfindNewlineQuote, ih h.2]
    rw [if_neg]
    rintro ⟨hc, hh⟩
    simp [hc, hh] at h

/-- One-step unfolding of `rfindNewlineQuote`. -/
theorem rfindNewlineQuote_cons (c : Char) (rest : List Char) :
    rfindNewlineQuote (c :: rest) =
      match rfindNewlineQuote rest with
      | some i => some (i + 1)
      | none => if c = '\n' ∧ rest.head? = some '>' then some 0 else none := rfl

/-- `rfind("\n>")` finds the last occurrence: with no occurrence after
position `p.length`, it returns exactly `p.length`. -/
theorem rfindNewlineQuote_append (p m1 : List Char)
    (h : hasQuotePair m1 = false) :
    rfindNewlineQuote (p ++ '\n' :: '>' :: m1) = some p.length := by
  induction p with
  | nil =>
    have hrest : rfindNewlineQuote ('>' :: m1) = none := by
      apply rfindNewlineQuote_eq_none
      simp [hasQuotePair, h]
    rw [List.nil_append, rfindNewlineQuote_cons, hrest]
    rfl
  | cons c p' ih =>
    rw [List.cons_append, rfindNewlineQuote_cons, ih]
    rfl

/-- `find('\n')` misses a newline-free list (any start index). -/
theorem findIdx_newline_none (l : List Char) (h : '\n' ∉ l) :
    ∀ i, List.findIdx? (fun c => c = '\n') l i = none := by
  induction l with
  | nil => intro i; rfl
  | cons c rest ih =>
    intro i
    simp only [List.mem_cons] at h
    push_neg at h
    rw [List.findIdx?_cons, if_neg (by simpa using fun hc => h.1 hc.symm)]
    exact ih h.2 (i + 1)

/-- `find('\n')` returns the first newline's position. -/
theorem findIdx_newline_append (line m2 : List Char) (h : '\n' ∉ line) :
    ∀ i, List.findIdx? (fun c => c = '\n') (line ++ '\n' :: m2) i =
      some (i + line.length) := by
  induction line with
  | nil =>
    intro i
    rw [List.nil_append, List.findIdx?_cons, if_pos (by simp)]
    simp
  | cons c line' ih =>
    intro i
    simp only [List.mem_cons] at h
    push_neg at h
    rw [List.cons_append, List.findIdx?_cons,
      if_neg (by simpa using fun hc => h.1 hc.symm), ih h.2 (i + 1)]
    congr 1
    simp only [List.length_cons]
    omega

/-- Every message splits at its last `"\n>"` occurrence (or has none). -/
theorem quotePair_decomp (l : List Char) :
    hasQuotePair l = false ∨
      ∃ p m1, l = p ++ '\n' :: '>' :: m1 ∧ hasQuotePair m1 = false := by
  induction l with
  | nil => exact Or.inl rfl
  | cons c rest ih =>
    rcases ih with h | ⟨p, m1, rfl, hm1⟩
    · by_cases hc : c = '\n' ∧ rest.head? = some '>'
      · obtain ⟨hc1, hc2⟩ := hc
        cases rest with
        | nil => exact absurd hc2 (by simp)
        | cons r rt =>
          have hr : r = '>' := by simpa using hc2
          refine Or.inr ⟨[], rt, by rw [hc1, hr]; rfl, ?_⟩
          simpa [hasQuotePair, hr] using h
      · refine Or.inl ?_
        simp only [hasQuotePair, Bool.or_eq_false_iff, h, and_true]
        rcases not_and_or.mp hc with h1 | h2
        · simp [h1]
        · simp [h2]
    · exact Or.inr ⟨c :: p, m1, rfl, hm1⟩

/-- Every list splits at its first newline (or has none). -/
theorem newline_decomp (l : List Char) :
    '\n' ∉ l ∨ ∃ line m2, l = line ++ '\n' :: m2 ∧ '\n' ∉ line := by
  induction l with
  | nil => exact Or.inl (List.not_mem_nil _)
  | cons c rest ih =>
    by_cases hc : c = '\n'
    · exact Or.inr ⟨[], rest, by rw [hc]; rfl, List.not_mem_nil _⟩
    · rcases ih with h | ⟨line, m2, rfl, hline⟩
      · refine Or.inl ?_
        simp only [List.mem_cons, not_or]
        exact ⟨fun hx => hc hx.symm, h⟩
      · refine Or.inr ⟨c :: line, m2, rfl, ?_⟩
        simp only [List.mem_cons, not_or]
        exact ⟨fun hx => hc hx.symm, hline⟩

/-- Claim C6, counterexample.  The claim says the primary target comes
from a mention at the very start of the content, after skipping leading
quoted lines, with the reply author as fallback.  The code instead drops
the whole first line of any multi-line message (after cutting at the last
`"\n>"`, when present).  Input 1: the content starts with the mention
`<@123>` and holds no quoted line, so per the claim the primary target
must be `123`; the code skips the whole first line and falls back to the
reply author `7`.  Input 2: the mention sits on the second line — not at
the start, and the first line `hi` is not a quoted line — so per the
claim the reply author `7` must be the target; the code takes `123`. -/
theorem c6_counterexample :
    ((Interaction.new_from_message 0
        { guild_id := some 5, channel_id := 9, author_id := 4,
          author_bot := false, content := "<@123> x\nhi".toList,
          mentions := [123] } (some { author_id := 7 })).map
        fun i => i.target) = some (some 7) ∧
    ((Interaction.new_from_message 0
        { guild_id := some 5, channel_id := 9, author_id := 4,
          author_bot := false, content := "hi\n<@123> x".toList,
          mentions := [123] } (some { author_id := 7 })).map
        fun i => i.target) = some (some 123) := by
  exact ⟨by decide, by decide⟩

/-- Claim C6 (amended).  For every guild message,
`Interaction::new_from_message` computes the primary target by parsing a
direct user-mention (plain `<@id>` or nickname `<@!id>` form) at the very
start of the remainder obtained by cutting the content to just after its
last `"\n>"` occurrence (if any) and then past the first newline of that
remainder (if any) — so the first remaining line of a multi-line message
is skipped unconditionally, quoted or not; only when no such mention
parses does it fall back to the author of the reply-referenced message;
every other plainly-mentioned user becomes a secondary target, excluding
the user chosen as the primary target.  The first conjunct characterizes
the preprocessing against independently stated decompositions (`m1` the
suffix after the last `"\n>"`, `m2` the suffix of `m1` past its first
newline), the second shows such decompositions exist for every content,
and the closing conjuncts evaluate representative contents, including the
Rust unit tests and the two divergence inputs of `c6_counterexample`. -/
theorem c6_new_from_message :
    (∀ (message m1 m2 : List Char),
      ((hasQuotePair message = false ∧ m1 = message) ∨
        (∃ p, message = p ++ '\n' :: '>' :: m1 ∧ hasQuotePair m1 = false)) →
      (('\n' ∉ m1 ∧ m2 = m1) ∨
        (∃ line, m1 = line ++ '\n' :: m2 ∧ '\n' ∉ line)) →
      parse_direct_mention message = startMention m2) ∧
    (∀ message : List Char, ∃ m1 m2,
      ((hasQuotePair message = false ∧ m1 = message) ∨
        (∃ p, message = p ++ '\n' :: '>' :: m1 ∧ hasQuotePair m1 = false)) ∧
      (('\n' ∉ m1 ∧ m2 = m1) ∨
        (∃ line, m1 = line ++ '\n' :: m2 ∧ '\n' ∉ line))) ∧
    (∀ (now : Nat) (m : Message) (guild_id : GuildId)
      (referenced : Option CachedMessage),
      m.guild_id = some guild_id →
      ∃ i, Interaction.new_from_message now m referenced = some i ∧
        i.target = (parse_direct_mention m.content).or
          (referenced.map fun r => r.author_id) ∧
        (∀ u, parse_direct_mention m.content = some u → i.target = some u) ∧
        (parse_direct_mention m.content = none →
          i.target = referenced.map fun r => r.author_id) ∧
        i.other_targets = m.mentions.filter (fun u => ¬some u = i.target) ∧
        (∀ u ∈ m.mentions, some u ≠ i.target → u ∈ i.other_targets) ∧
        (∀ u, some u = i.target → u ∉ i.other_targets) ∧
        i.what = InteractionType.Message ∧ i.guild = guild_id ∧
        i.channel = m.channel_id ∧ i.source = m.author_id ∧
        i.source_is_bot = m.author_bot) ∧
    (∀ (now : Nat) (m : Message) (referenced : Option CachedMessage),
      m.guild_id = none → Interaction.new_from_message now m referenced = none) ∧
    parse_direct_mention "<@123> hi".toList = some 123 ∧
    parse_direct_mention "<@!123> hi".toList = some 123 ∧
    parse_direct_mention "> <@!99> quoted\n<@123> hi".toList = some 123 ∧
    parse_direct_mention "hi <@123>".toList = none ∧
    parse_direct_mention "hi\n<@123> x".toList = some 123 ∧
    parse_direct_mention "<@123> x\nhi".toList = none := by
  refine ⟨?_, ?_, ?_, ?_, by decide, by decide, by decide, by decide,
    by decide, by decide⟩
  · intro message m1 m2 hquote hnewline
    have hstep1 : cutLastQuote message = m1 := by
      unfold cutLastQuote
      rcases hquote with ⟨hnp, rfl⟩ | ⟨p, rfl, hnp⟩
      · rw [rfindNewlineQuote_eq_none _ hnp]
      · rw [rfindNewlineQuote_append p m1 hnp]
        exact @List.drop_append _ p ('\n' :: '>' :: m1) 2
    have hstep2 : cutFirstLine m1 = m2 := by
      unfold cutFirstLine
      rcases hnewline with ⟨hnm, rfl⟩ | ⟨line, rfl, hnl⟩
      · rw [findIdx_newline_none _ hnm 0]
      · rw [findIdx_newline_append line m2 hnl 0]
        simp only [Nat.zero_add]
        exact @List.drop_append _ line ('\n' :: m2) 1
    unfold parse_direct_mention
    rw [hstep1, hstep2]
  · intro message
    rcases quotePair_decomp message with h | ⟨p, m1, rfl, hm1⟩
    · rcases newline_decomp message with hn | ⟨line, m2, heq, hline⟩
      · exact ⟨message, message, Or.inl ⟨h, rfl⟩, Or.inl ⟨hn, rfl⟩⟩
      · exact ⟨message, m2, Or.inl ⟨h, rfl⟩, Or.inr ⟨line, heq, hline⟩⟩
    · rcases newline_decomp m1 with hn | ⟨line, m2, heq, hline⟩
      · exact ⟨m1, m1, Or.inr ⟨p, rfl, hm1⟩, Or.inl ⟨hn, rfl⟩⟩
      · exact ⟨m1, m2, Or.inr ⟨p, rfl, hm1⟩, Or.inr ⟨line, heq, hline⟩⟩
  · intro now m guild_id referenced hguild
    unfold Interaction.new_from_message
    rw [hguild]
    refine ⟨_, rfl, rfl, ?_, ?_, rfl, ?_, ?_, rfl, rfl, rfl, rfl, rfl⟩
    · intro u hu
      simp [hu, Option.or]
    · intro hnone
      simp [hnone, Option.or]
    · intro u hmem hne
      simp only [List.mem_filter]
      exact ⟨hmem, by simpa using hne⟩
    · intro u hu hmem
      rw [List.mem_filter] at hmem
      exact absurd hu (by simpa using hmem.2)
  · intro now m referenced hguild
    unfold Interaction.new_from_message
    rw [hguild]

/-- Claim C6, witness: the preprocessing characterization applied to the
content `a\n> q\n<@5> x` — after cutting at the last `"\n>"` (leaving
` q\n<@5> x`) and then past that remainder's first newline, the mention
`<@5>` is parsed; and the full extraction on a message opening with a
quoted line followed by `<@123>`, replying to user `7` and mentioning
`[99, 123, 55]`: the parsed mention wins over the reply author and `123`
is excluded from the secondary targets. -/
theorem c6_new_from_message_witness :
    parse_direct_mention "a\n> q\n<@5> x".toList = some 5 ∧
    ∃ i, Interaction.new_from_message 0
        { guild_id := some 5, channel_id := 9, author_id := 4,
          author_bot := false,
          content := "> <@!99> quoted\n<@123> hi".toList,
          mentions := [99, 123, 55] } (some { author_id := 7 }) = some i ∧
      i.target = some 123 ∧ i.other_targets = [99, 55] := by
  constructor
  · exact (c6_new_from_message.1 "a\n> q\n<@5> x".toList
      " q\n<@5> x".toList "<@5> x".toList
      (Or.inr ⟨"a".toList, by decide, by decide⟩)
      (Or.inr ⟨" q".toList, by decide, by decide⟩)).trans (by decide)
  · obtain ⟨i, heq, htarget, -, -, hother, -⟩ :=
      c6_new_from_message.2.2.1 0
        { guild_id := some 5, channel_id := 9, author_id := 4,
          author_bot := false,
          content := "> <@!99> quoted\n<@123> hi".toList,
          mentions := [99, 123, 55] } 5 (some { author_id := 7 }) rfl
    have hparse :
        parse_direct_mention "> <@!99> quoted\n<@123> hi".toList = some 123 := by
      decide
    refine ⟨i, heq, ?_, ?_⟩
    · rw [htarget, hparse]
      rfl
    · rw [hother, htarget, hparse]
      decide

/-! ## Claim C7: bulk member request chunking and partial results -/

/-- Concatenating the chunks gives back the original id list. -/
theorem chunksOfAux_flatten (n : Nat) (hn : 0 < n) :
    ∀ (fuel : Nat) (l : List UserId), l.length ≤ fuel →
      (chunksOfAux n fuel l).flatten = l := by
  intro fuel
  induction fuel with
  | zero =>
    intro l hl
    have : l = [] := List.length_eq_zero.mp (Nat.le_zero.mp hl)
    subst this
    rfl
  | succ fuel ih =>
    intro l hl
    cases l with
    | nil => rfl
    | cons x xs =>
      simp only [chunksOfAux, List.flatten_cons]
      have hdrop : ((x :: xs).drop n).length ≤ fuel := by
        rw [List.length_drop, List.length_cons]
        simp only [List.length_cons] at hl
        omega
      rw [ih _ hdrop]
      exact List.take_append_drop n (x :: xs)

/-- Every chunk holds between 1 and `n` ids. -/
theorem chunksOfAux_sizes (n : Nat) (hn : 0 < n) :
    ∀ (fuel : Nat) (l : List UserId), ∀ c ∈ chunksOfAux n fuel l,
      c.length ≤ n ∧ c ≠ [] := by
  intro fuel
  induction fuel with
  | zero =>
    intro l c hc
    cases l <;> simp [chunksOfAux] at hc
  | succ fuel ih =>
    intro l c hc
    cases l with
    | nil => simp [chunksOfAux] at hc
    | cons x xs =>
      simp only [chunksOfAux, List.mem_cons] at hc
      rcases hc with rfl | hc
      · refine ⟨by simp [List.length_take_le], ?_⟩
        have : 0 < ((x :: xs).take n).length := by
          rw [List.length_take]
          simp only [List.length_cons]
          omega
        exact List.ne_nil_of_length_pos this
      · exact ih _ c hc

/-- Claim C7.  `Cache::bulk_request_members` splits the requested ids into
consecutive chunks of at most 100 (each chunk is one outbound command,
tagged with its own pre-drawn nonce), and the successful return value is
only the concatenation of the `not_found` lists of the chunks whose
responses arrived before the timeout; the cache gains only the members
carried by those responses.  Hence an id from a chunk whose response never
arrives — assuming each response only speaks about ids of its own chunk,
and the id does not occur in any other chunk — shows up in neither the
not-found output nor the resolved members.  The closing conjuncts run the
spec's scenario: 250 ids make exactly 3 chunks of sizes 100/100/50, and
with the second chunk unanswered the result only reflects chunks 1 and 3,
with ids 101..200 (the second chunk) absent from both outputs. -/
theorem c7_bulk_request_members :
    (∀ (n : Nat) (user_ids : List UserId), 0 < n →
      (chunksOf n user_ids).flatten = user_ids ∧
      ∀ c ∈ chunksOf n user_ids, c.length ≤ n ∧ c ≠ []) ∧
    (∀ (user_ids : List UserId) (nonces : List Nat)
      (respond : Nat → Option MemberChunkResponse)
      (chunk : List UserId) (nonce : Nat) (u : UserId),
      (chunk, nonce) ∈ (chunksOf 100 user_ids).zip nonces →
      respond nonce = none →
      u ∈ chunk →
      (∀ p ∈ (chunksOf 100 user_ids).zip nonces,
        ((respond p.2).elim true fun r =>
          (r.not_found ++ r.resolved).all fun v => v ∈ p.1) = true) →
      (∀ p ∈ (chunksOf 100 user_ids).zip nonces, p.2 ≠ nonce → u ∉ p.1) →
      u ∉ Cache.bulk_request_members user_ids nonces respond ∧
      u ∉ Cache.bulkResolvedMembers user_ids nonces respond) ∧
    (chunksOf 100 (List.range' 1 250)).map List.length = [100, 100, 50] ∧
    Cache.bulk_request_members (List.range' 1 250) [10, 20, 30]
      (fun n => if n = 10 then some ⟨[1, 2], [3]⟩
        else if n = 30 then some ⟨[201], [250]⟩ else none) = [3, 250] ∧
    Cache.bulkResolvedMembers (List.range' 1 250) [10, 20, 30]
      (fun n => if n = 10 then some ⟨[1, 2], [3]⟩
        else if n = 30 then some ⟨[201], [250]⟩ else none) = [1, 2, 201] ∧
    (∀ u ∈ List.range' 101 100,
      u ∉ Cache.bulk_request_members (List.range' 1 250) [10, 20, 30]
        (fun n => if n = 10 then some ⟨[1, 2], [3]⟩
          else if n = 30 then some ⟨[201], [250]⟩ else none) ∧
      u ∉ Cache.bulkResolvedMembers (List.range' 1 250) [10, 20, 30]
        (fun n => if n = 10 then some ⟨[1, 2], [3]⟩
          else if n = 30 then some ⟨[201], [250]⟩ else none)) := by
  refine ⟨?_, ?_, by decide, by decide, by decide, by decide⟩
  · intro n user_ids hn
    exact ⟨chunksOfAux_flatten n hn _ _ le_rfl, chunksOfAux_sizes n hn _ _⟩
  · intro user_ids nonces respond chunk nonce u hpair hnone hu hconf hother
    constructor
    · intro hmem
      unfold Cache.bulk_request_members at hmem
      obtain ⟨r, hr, hunf⟩ := List.mem_flatMap.mp hmem
      obtain ⟨p, hp, hresp⟩ := List.mem_filterMap.mp hr
      by_cases hpn : p.2 = nonce
      · rw [hpn, hnone] at hresp
        exact Option.noConfusion hresp
      · have hconf' := hconf p hp
        rw [hresp] at hconf'
        simp only [Option.elim_some, List.all_eq_true, List.mem_append,
          decide_eq_true_eq] at hconf'
        exact hother p hp hpn (hconf' u (Or.inl hunf))
    · intro hmem
      unfold Cache.bulkResolvedMembers at hmem
      obtain ⟨r, hr, hunf⟩ := List.mem_flatMap.mp hmem
      obtain ⟨p, hp, hresp⟩ := List.mem_filterMap.mp hr
      by_cases hpn : p.2 = nonce
      · rw [hpn, hnone] at hresp
        exact Option.noConfusion hresp
      · have hconf' := hconf p hp
        rw [hresp] at hconf'
        simp only [Option.elim_some, List.all_eq_true, List.mem_append,
          decide_eq_true_eq] at hconf'
        exact hother p hp hpn (hconf' u (Or.inr hunf))

/-- Claim C7, witness: in the 250-id scenario with the second chunk's
response missing, id `150` (from the unanswered chunk) appears in neither
the returned not-found list nor the resolved member set. -/
theorem c7_bulk_request_members_witness :
    150 ∉ Cache.bulk_request_members (List.range' 1 250) [10, 20, 30]
      (fun n => if n = 10 then some ⟨[1, 2], [3]⟩
        else if n = 30 then some ⟨[201], [250]⟩ else none) ∧
    150 ∉ Cache.bulkResolvedMembers (List.range' 1 250) [10, 20, 30]
      (fun n => if n = 10 then some ⟨[1, 2], [3]⟩
        else if n = 30 then some ⟨[201], [250]⟩ else none) :=
  c7_bulk_request_members.2.1 (List.range' 1 250) [10, 20, 30] _
    (List.range' 101 100) 20 150 (by decide) (by decide) (by decide)
    (by decide) (by decide)

/-! ## Claim C10: guild-scoped frame effects of `SocialGraph` operations -/

/-- Claim C10.  Every `SocialGraph` operation taking a guild id only
mutates state keyed by that guild: `apply` leaves the channel graphs of
every other guild unchanged and never touches inference history at all;
`infer` never touches channel graphs and only replaces the
`(guild, channel)` history entry it ran on; `remove_channel` leaves other
guilds' graphs and all other `(guild, channel)` history entries unchanged;
`remove_guild` drops exactly the given guild's channel map (its entry
becomes `None`), leaves every other guild's graphs unchanged, and drops
history entries only for keys of the given guild.  `build_guild_graph`
reads `s` without producing a new state at all (its type is
`SocialGraph → Option UserRelationshipGraphMap`), so it cannot mutate
per-guild state in this model. -/
theorem c10_guild_frame :
    (∀ (s : SocialGraph) (i : Interaction) (changes : List RelationshipChange),
      (∀ g, g ≠ i.guild → (s.apply i changes).graph g = s.graph g) ∧
      (∀ k, (s.apply i changes).state k = s.state k)) ∧
    (∀ (s : SocialGraph) (i : Interaction),
      ((s.infer i).2.graph = s.graph) ∧
      (∀ k, k ≠ (i.guild, i.channel) → (s.infer i).2.state k = s.state k)) ∧
    (∀ (s : SocialGraph) (guild_id : GuildId) (channel_id : ChannelId),
      (∀ g, g ≠ guild_id →
        (s.remove_channel guild_id channel_id).graph g = s.graph g) ∧
      (∀ k, k ≠ (guild_id, channel_id) →
        (s.remove_channel guild_id channel_id).state k = s.state k)) ∧
    (∀ (s : SocialGraph) (guild_id : GuildId),
      ((s.remove_guild guild_id).graph guild_id = none) ∧
      (∀ g, g ≠ guild_id → (s.remove_guild guild_id).graph g = s.graph g) ∧
      (∀ k, k.1 ≠ guild_id → (s.remove_guild guild_id).state k = s.state k)) := by
  refine ⟨?_, ?_, ?_, ?_⟩
  · intro s i changes
    constructor
    · intro g hg
      simp only [SocialGraph.apply]
      rw [if_neg hg]
    · intro k
      rfl
  · intro s i
    constructor
    · rfl
    · intro k hk
      simp only [SocialGraph.infer]
      rw [if_neg hk]
  · intro s guild_id channel_id
    constructor
    · intro g hg
      simp only [SocialGraph.remove_channel]
      rw [if_neg hg]
    · intro k hk
      simp only [SocialGraph.remove_channel]
      rw [if_neg hk]
  · intro s guild_id
    refine ⟨?_, ?_, ?_⟩
    · simp [SocialGraph.remove_guild]
    · intro g hg
      simp only [SocialGraph.remove_guild]
      rw [if_neg hg]
    · intro k hk
      simp only [SocialGraph.remove_guild]
      rw [if_neg (fun hc => hk hc.1)]

/-- Claim C10, witness: applying a message interaction in guild `1` and
then removing guild `1` leaves guild `2`'s (absent) graph entry and an
unrelated history key untouched, and guild `1`'s entry gone. -/
theorem c10_guild_frame_witness :
    ((SocialGraph.new none).apply
        ⟨InteractionType.Message, 0, 1, 2, 7, false, none, []⟩ []).graph 2 =
      (SocialGraph.new none).graph 2 ∧
    ((SocialGraph.new none).apply
        ⟨InteractionType.Message, 0, 1, 2, 7, false, none, []⟩ []).state (2, 3) =
      (SocialGraph.new none).state (2, 3) ∧
    ((SocialGraph.new none).remove_guild 1).graph 1 = none :=
  ⟨(c10_guild_frame.1 (SocialGraph.new none)
      ⟨InteractionType.Message, 0, 1, 2, 7, false, none, []⟩ []).1 2 (by decide),
   (c10_guild_frame.1 (SocialGraph.new none)
      ⟨InteractionType.Message, 0, 1, 2, 7, false, none, []⟩ []).2 (2, 3),
   (c10_guild_frame.2.2.2 (SocialGraph.new none) 1).1⟩

/-! ## Claim C1: decay performed by `SocialGraph::apply` -/

/-- Specialization of `lookupKey_map_value` to graph-wide decay, in
first-order form usable as a rewrite rule. -/
theorem lookupKey_map_graph_decay
    (l : List (ChannelId × UserRelationshipGraphMap))
    (amount : RelationshipStrength) (key : ChannelId) :
    lookupKey (l.map fun p => (p.1, p.2.decay amount)) key =
      (lookupKey l key).map fun g => g.decay amount :=
  lookupKey_map_value l (fun g => g.decay amount) key

/-- Claim C1.  For a human (non-bot) message interaction, `apply` decays
every channel graph already stored for the guild — the siblings of the
interaction's channel — by `RELATIONSHIP_DECAY_GLOBAL = -0.0002`, and the
interaction's own channel graph (the already-globally-decayed entry when
present, otherwise the graph loaded on first touch) additionally by the
larger per-application constant `RELATIONSHIP_DECAY = -0.02` before the
changes are folded in.  For reaction interactions and bot-authored
messages no guild-wide decay happens: sibling channel graphs are left
exactly as they were, and only the interaction's own channel graph is
decayed, by `RELATIONSHIP_DECAY` alone. -/
theorem c1_apply_decay :
    (∀ (s : SocialGraph) (i : Interaction) (changes : List RelationshipChange),
      i.what = InteractionType.Message → i.source_is_bot = false →
      (∀ c, c ≠ i.channel →
        (s.apply i changes).channelGraph i.guild c =
          (s.channelGraph i.guild c).map
            fun g => g.decay RELATIONSHIP_DECAY_GLOBAL) ∧
      (s.apply i changes).channelGraph i.guild i.channel =
        some (UserRelationshipGraphMap.applyChanges
          (UserRelationshipGraphMap.decay
            (match s.channelGraph i.guild i.channel with
             | some g => g.decay RELATIONSHIP_DECAY_GLOBAL
             | none => SocialGraph.loadOrNew s.data_dir i.guild i.channel)
            RELATIONSHIP_DECAY)
          changes)) ∧
    (∀ (s : SocialGraph) (i : Interaction) (changes : List RelationshipChange),
      i.what = InteractionType.Reaction ∨ i.source_is_bot = true →
      (∀ c, c ≠ i.channel →
        (s.apply i changes).channelGraph i.guild c = s.channelGraph i.guild c) ∧
      (s.apply i changes).channelGraph i.guild i.channel =
        some (UserRelationshipGraphMap.applyChanges
          (UserRelationshipGraphMap.decay
            ((s.channelGraph i.guild i.channel).getD
              (SocialGraph.loadOrNew s.data_dir i.guild i.channel))
            RELATIONSHIP_DECAY)
          changes)) ∧
    RELATIONSHIP_DECAY < RELATIONSHIP_DECAY_GLOBAL ∧
    RELATIONSHIP_DECAY_GLOBAL < 0 ∧
    RELATIONSHIP_DECAY = -(2/100) ∧ RELATIONSHIP_DECAY_GLOBAL = -(2/10000) := by
  have happly : ∀ (s : SocialGraph) (i : Interaction)
      (changes : List RelationshipChange) (c : ChannelId),
      (s.apply i changes).channelGraph i.guild c =
        lookupKey
          (updateKey
            (if i.what = InteractionType.Message ∧ i.source_is_bot = false then
              ((s.graph i.guild).getD []).map
                fun p => (p.1, p.2.decay RELATIONSHIP_DECAY_GLOBAL)
             else (s.graph i.guild).getD [])
            i.channel
            fun _ =>
              UserRelationshipGraphMap.applyChanges
                (UserRelationshipGraphMap.decay
                  (match lookupKey
                      (if i.what = InteractionType.Message ∧ i.source_is_bot = false then
                        ((s.graph i.guild).getD []).map
                          fun p => (p.1, p.2.decay RELATIONSHIP_DECAY_GLOBAL)
                       else (s.graph i.guild).getD [])
                      i.channel with
                   | some g => g
                   | none => SocialGraph.loadOrNew s.data_dir i.guild i.channel)
                  RELATIONSHIP_DECAY)
                changes)
          c := by
    intro s i changes c
    simp only [SocialGraph.apply, SocialGraph.channelGraph, if_true,
      Option.some_bind]
  have hchannels : ∀ (s : SocialGraph) (i : Interaction) (c : ChannelId),
      lookupKey ((s.graph i.guild).getD []) c = s.channelGraph i.guild c := by
    intro s i c
    cases hg : s.graph i.guild <;> simp [SocialGraph.channelGraph, hg]
  refine ⟨?_, ?_, by norm_num [RELATIONSHIP_DECAY, RELATIONSHIP_DECAY_GLOBAL],
    by norm_num [RELATIONSHIP_DECAY_GLOBAL], rfl, rfl⟩
  · intro s i changes hmsg hbot
    have hcond : i.what = InteractionType.Message ∧ i.source_is_bot = false :=
      ⟨hmsg, hbot⟩
    constructor
    · intro c hc
      rw [happly, lookupKey_updateKey_other _ _ _ _ hc, if_pos hcond,
        lookupKey_map_graph_decay, hchannels]
    · rw [happly, lookupKey_updateKey_self, if_pos hcond,
        lookupKey_map_graph_decay, hchannels]
      cases s.channelGraph i.guild i.channel <;> rfl
  · intro s i changes hcase
    have hcond : ¬(i.what = InteractionType.Message ∧ i.source_is_bot = false) := by
      rcases hcase with h | h
      · rintro ⟨hc, -⟩
        rw [h] at hc
        exact InteractionType.noConfusion hc
      · rintro ⟨-, hc⟩
        rw [h] at hc
        exact Bool.noConfusion hc
    constructor
    · intro c hc
      rw [happly, lookupKey_updateKey_other _ _ _ _ hc, if_neg hcond, hchannels]
    · rw [happly, lookupKey_updateKey_self, if_neg hcond, hchannels]
      cases s.channelGraph i.guild i.channel <;> rfl

/-- Claim C1, witness: guild `1` holds channel graphs for channels `2` and
`9`; a human message in channel `2` decays the sibling channel `9` by the
global constant only, and channel `2` by the global and then the
per-application constant; a reaction in channel `2` leaves channel `9`
untouched. -/
theorem c1_apply_decay_witness :
    ((SocialGraph.mk none
        (fun g => if g = 1 then
          some [(2, ⟨[((7, 8), 3)]⟩), (9, ⟨[((7, 8), 5)]⟩)] else none)
        (fun _ => none)).apply
        ⟨InteractionType.Message, 0, 1, 2, 7, false, some 8, []⟩ []).channelGraph 1 9 =
      ((SocialGraph.mk none
        (fun g => if g = 1 then
          some [(2, ⟨[((7, 8), 3)]⟩), (9, ⟨[((7, 8), 5)]⟩)] else none)
        (fun _ => none)).channelGraph 1 9).map
        (fun g => g.decay RELATIONSHIP_DECAY_GLOBAL) ∧
    ((SocialGraph.mk none
        (fun g => if g = 1 then
          some [(2, ⟨[((7, 8), 3)]⟩), (9, ⟨[((7, 8), 5)]⟩)] else none)
        (fun _ => none)).apply
        ⟨InteractionType.Reaction, 0, 1, 2, 7, false, some 8, []⟩ []).channelGraph 1 9 =
      (SocialGraph.mk none
        (fun g => if g = 1 then
          some [(2, ⟨[((7, 8), 3)]⟩), (9, ⟨[((7, 8), 5)]⟩)] else none)
        (fun _ => none)).channelGraph 1 9 :=
  ⟨((c1_apply_decay.1 (SocialGraph.mk none
      (fun g => if g = 1 then
        some [(2, ⟨[((7, 8), 3)]⟩), (9, ⟨[((7, 8), 5)]⟩)] else none)
      (fun _ => none))
      ⟨InteractionType.Message, 0, 1, 2, 7, false, some 8, []⟩ [] rfl rfl).1 9
      (by decide)),
   ((c1_apply_decay.2.1 (SocialGraph.mk none
      (fun g => if g = 1 then
        some [(2, ⟨[((7, 8), 3)]⟩), (9, ⟨[((7, 8), 5)]⟩)] else none)
      (fun _ => none))
      ⟨InteractionType.Reaction, 0, 1, 2, 7, false, some 8, []⟩ []
      (Or.inl rfl)).1 9 (by decide))⟩

/-! ## Claim C8: `build_guild_graph` merge semantics -/

namespace UserRelationshipGraphMap

/-- The total weight a raw entry list contributes to one key. -/
def keySum (es : List (EdgeKey × RelationshipStrength)) (key : EdgeKey) :
    RelationshipStrength :=
  ((es.filter fun e => e.1 = key).map fun e => e.2).sum

@[simp] theorem keySum_nil (key : EdgeKey) : keySum [] key = 0 := rfl

theorem keySum_eq_zero_of_not_mem (es : List (EdgeKey × RelationshipStrength))
    (key : EdgeKey) (h : key ∉ es.map Prod.fst) : keySum es key = 0 := by
  induction es with
  | nil => rfl
  | cons e rest ih =>
    simp only [List.map_cons, List.mem_cons] at h
    push_neg at h
    have he : ¬e.1 = key := fun hc => h.1 hc.symm
    simp only [keySum, List.filter_cons, decide_eq_true_eq, he, if_false]
    exact ih h.2

theorem find?_addWeight_self (g : UserRelationshipGraphMap) (key : EdgeKey)
    (amount : RelationshipStrength) :
    (g.addWeight key amount).find? key = some ((g.find? key).getD 0 + amount) :=
  lookupKey_updateKey_self g.entries key _

theorem find?_addWeight_other (g : UserRelationshipGraphMap)
    (key key' : EdgeKey) (amount : RelationshipStrength) (h : key' ≠ key) :
    (g.addWeight key amount).find? key' = g.find? key' :=
  lookupKey_updateKey_other g.entries key key' _ h

/-- Folding a raw entry list into a graph adds each key's `keySum`. -/
theorem find?_foldl_addWeight (es : List (EdgeKey × RelationshipStrength)) :
    ∀ (acc : UserRelationshipGraphMap) (key : EdgeKey),
      ((es.foldl (fun gg e => gg.addWeight e.1 e.2) acc).find? key) =
        if key ∈ es.map Prod.fst then
          some ((acc.find? key).getD 0 + keySum es key)
        else acc.find? key := by
  induction es with
  | nil =>
    intro acc key
    simp
  | cons e rest ih =>
    intro acc key
    simp only [List.foldl_cons, List.map_cons, List.mem_cons]
    by_cases he : e.1 = key
    · rw [if_pos (Or.inl he.symm), ih]
      have hself : ((acc.addWeight e.1 e.2).find? key) =
          some ((acc.find? key).getD 0 + e.2) := by
        rw [he, find?_addWeight_self]
      have hsum : keySum (e :: rest) key = e.2 + keySum rest key := by
        simp [keySum, List.filter_cons, he]
      by_cases hrest : key ∈ rest.map Prod.fst
      · rw [if_pos hrest, hself, hsum]
        simp only [Option.getD_some]
        rw [add_assoc]
      · rw [if_neg hrest, hself, hsum,
          keySum_eq_zero_of_not_mem rest key hrest, add_zero]
    · have hne : key ≠ e.1 := fun hc => he hc.symm
      have hsum : keySum (e :: rest) key = keySum rest key := by
        simp [keySum, List.filter_cons, he]
      rw [ih, find?_addWeight_other acc e.1 key e.2 hne, hsum]
      by_cases hrest : key ∈ rest.map Prod.fst
      · rw [if_pos hrest, if_pos (Or.inr hrest)]
      · have hnotmem : ¬(key = e.1 ∨ key ∈ rest.map Prod.fst) := by
          rintro (hc | hc)
          · exact hne hc
          · exact hrest hc
        rw [if_neg hrest, if_neg hnotmem]

/-- On a list with unique keys, `keySum` is the looked-up weight. -/
theorem keySum_eq_lookupKey (l : List (EdgeKey × RelationshipStrength))
    (key : EdgeKey) (hwf : (l.map Prod.fst).Nodup) :
    keySum l key = (lookupKey l key).getD 0 := by
  induction l with
  | nil => rfl
  | cons e rest ih =>
    obtain ⟨k, w⟩ := e
    simp only [List.map_cons, List.nodup_cons] at hwf
    by_cases hk : k = key
    · subst hk
      have h2 : keySum rest k = 0 := keySum_eq_zero_of_not_mem rest k hwf.1
      rw [show keySum ((k, w) :: rest) k = w + keySum rest k by
            simp [keySum, List.filter_cons],
        h2, add_zero, lookupKey_cons, if_pos rfl, Option.getD_some]
    · have hk' : ¬key = k := fun hc => hk hc.symm
      rw [show keySum ((k, w) :: rest) key = keySum rest key by
            simp [keySum, List.filter_cons, hk],
        lookupKey_cons, if_neg hk']
      exact ih hwf.2

/-- On a well-formed graph, `keySum` of the entries is the stored weight. -/
theorem keySum_entries_eq_find? (g : UserRelationshipGraphMap) (hwf : g.WF)
    (key : EdgeKey) : keySum g.entries key = (g.find? key).getD 0 :=
  keySum_eq_lookupKey g.entries key hwf

/-- A key is present in the lookup iff it occurs among the keys. -/
theorem find?_isSome_iff (g : UserRelationshipGraphMap) (key : EdgeKey) :
    (g.find? key).isSome = true ↔ key ∈ g.keys := by
  obtain ⟨l⟩ := g
  simp only [find?, keys]
  induction l with
  | nil => simp
  | cons e rest ih =>
    obtain ⟨k, w⟩ := e
    by_cases hk : key = k <;> simp [lookupKey_cons, hk, ih]

/-- Folding whole channel graphs into an accumulator adds, per key, the
sum of the channels' `keySum`s. -/
theorem find?_foldl_channels
    (chans : List (ChannelId × UserRelationshipGraphMap)) :
    ∀ (acc : UserRelationshipGraphMap) (key : EdgeKey),
      ((chans.foldl
          (fun gg p => p.2.entries.foldl (fun gg e => gg.addWeight e.1 e.2) gg)
          acc).find? key) =
        if ∃ p ∈ chans, key ∈ p.2.keys then
          some ((acc.find? key).getD 0 +
            (chans.map fun p => keySum p.2.entries key).sum)
        else acc.find? key := by
  induction chans with
  | nil =>
    intro acc key
    simp
  | cons p rest ih =>
    intro acc key
    simp only [List.foldl_cons, List.map_cons, List.sum_cons]
    rw [ih]
    by_cases hp : key ∈ p.2.keys
    · have hacc := find?_foldl_addWeight p.2.entries acc key
      rw [if_pos (by simpa [keys] using hp)] at hacc
      by_cases hrest : ∃ q ∈ rest, key ∈ q.2.keys
      · rw [if_pos hrest, if_pos ⟨p, List.mem_cons_self p rest, hp⟩, hacc]
        simp only [Option.getD_some]
        rw [add_assoc]
      · rw [if_neg hrest, if_pos ⟨p, List.mem_cons_self p rest, hp⟩, hacc]
        have : (rest.map fun q => keySum q.2.entries key).sum = 0 := by
          rw [List.sum_eq_zero]
          intro x hx
          obtain ⟨q, hq, rfl⟩ := List.mem_map.mp hx
          exact keySum_eq_zero_of_not_mem _ _
            (fun hc => hrest ⟨q, hq, by simpa [keys] using hc⟩)
        rw [this, add_zero]
    · have hacc := find?_foldl_addWeight p.2.entries acc key
      rw [if_neg (by simpa [keys] using hp)] at hacc
      have hzero : keySum p.2.entries key = 0 :=
        keySum_eq_zero_of_not_mem _ _ (by simpa [keys] using hp)
      rw [hacc, hzero, zero_add]
      by_cases hrest : ∃ q ∈ rest, key ∈ q.2.keys
      · rw [if_pos hrest,
          if_pos (by obtain ⟨q, hq, hqk⟩ := hrest; exact ⟨q, List.mem_cons_of_mem p hq, hqk⟩)]
      · rw [if_neg hrest, if_neg (by
          rintro ⟨q, hq, hqk⟩
          rcases List.mem_cons.mp hq with rfl | hq'
          · exact hp hqk
          · exact hrest ⟨q, hq', hqk⟩)]

end UserRelationshipGraphMap

/-- Claim C8, counterexample.  The claim says `build_guild_graph` returns
`None` if the guild has no known channel graphs.  But after
`remove_channel` removes a guild's last channel graph the guild keeps an
*empty* channel map: the guild demonstrably has no channel graphs
(`graph 1 = some []`), yet `build_guild_graph` returns `Some` of an empty
merged graph, not `None`. -/
theorem c8_counterexample :
    (((SocialGraph.new none).apply
        ⟨InteractionType.Message, 0, 1, 2, 7, false, none, []⟩ []).remove_channel
        1 2).graph 1 = some [] ∧
    (((SocialGraph.new none).apply
        ⟨InteractionType.Message, 0, 1, 2, 7, false, none, []⟩ []).remove_channel
        1 2).build_guild_graph 1 =
      some (UserRelationshipGraphMap.mk []) := by
  constructor <;> rfl

/-- Claim C8 (amended).  `build_guild_graph` merges every channel graph of
the guild by summing weights per `(source, target)` key: when the guild id
is present with channel list `chans` (all well-formed), the merged graph
maps `key` to the sum of the channels' weights for `key`, present iff some
channel holds the key; the result is independent of the order of the
channel list (a permutation of the channel entries yields identical
lookups); `build_guild_graph` takes the store immutably (it returns only
the fresh merged graph, leaving per-channel state untouched); and it
returns `None` iff the guild id is absent from the outer map — a guild
whose channel graphs were all removed keeps an empty channel map and
yields `Some` of an empty graph (see `c8_counterexample`).  The final
conjunct is the spec's example: channel graphs with edges `(A,B,3)` and
`(A,B,2)` merge to `(A,B,5)`. -/
theorem c8_build_guild_graph :
    (∀ (s : SocialGraph) (guild_id : GuildId),
      s.build_guild_graph guild_id = none ↔ s.graph guild_id = none) ∧
    (∀ (s : SocialGraph) (guild_id : GuildId)
      (chans : List (ChannelId × UserRelationshipGraphMap)),
      s.graph guild_id = some chans → (∀ p ∈ chans, p.2.WF) →
      ∃ merged, s.build_guild_graph guild_id = some merged ∧
        ∀ key, merged.find? key =
          if ∃ p ∈ chans, (p.2.find? key).isSome = true then
            some ((chans.map fun p => (p.2.find? key).getD 0).sum)
          else none) ∧
    (∀ (s₁ s₂ : SocialGraph) (guild_id : GuildId)
      (chans₁ chans₂ : List (ChannelId × UserRelationshipGraphMap)),
      s₁.graph guild_id = some chans₁ → s₂.graph guild_id = some chans₂ →
      chans₁.Perm chans₂ → (∀ p ∈ chans₁, p.2.WF) →
      ∀ key,
        (s₁.build_guild_graph guild_id).map (fun g => g.find? key) =
        (s₂.build_guild_graph guild_id).map (fun g => g.find? key)) ∧
    (SocialGraph.mk none
      (fun g => if g = 1 then
        some [(1, ⟨[((10, 20), 3)]⟩), (2, ⟨[((10, 20), 2)]⟩)] else none)
      (fun _ => none)).build_guild_graph 1 =
      some ⟨[((10, 20), 5)]⟩ := by
  have hchar : ∀ (s : SocialGraph) (guild_id : GuildId)
      (chans : List (ChannelId × UserRelationshipGraphMap)),
      s.graph guild_id = some chans → (∀ p ∈ chans, p.2.WF) →
      ∃ merged, s.build_guild_graph guild_id = some merged ∧
        ∀ key, merged.find? key =
          if ∃ p ∈ chans, (p.2.find? key).isSome = true then
            some ((chans.map fun p => (p.2.find? key).getD 0).sum)
          else none := by
    intro s guild_id chans hgraph hwf
    refine ⟨chans.foldl
      (fun gg p => p.2.entries.foldl (fun gg e => gg.addWeight e.1 e.2) gg)
      UserRelationshipGraphMap.new, ?_, ?_⟩
    · rw [SocialGraph.build_guild_graph, hgraph, Option.map_some']
    intro key
    rw [UserRelationshipGraphMap.find?_foldl_channels]
    have hcond : (∃ p ∈ chans, key ∈ p.2.keys) ↔
        (∃ p ∈ chans, (p.2.find? key).isSome = true) := by
      constructor <;> rintro ⟨p, hp, h⟩
      · exact ⟨p, hp, (UserRelationshipGraphMap.find?_isSome_iff p.2 key).mpr h⟩
      · exact ⟨p, hp, (UserRelationshipGraphMap.find?_isSome_iff p.2 key).mp h⟩
    have hval :
        ((UserRelationshipGraphMap.new.find? key).getD 0 +
          (chans.map fun p => UserRelationshipGraphMap.keySum p.2.entries key).sum) =
        (chans.map fun p => (p.2.find? key).getD 0).sum := by
      have hsum : (chans.map fun p =>
          UserRelationshipGraphMap.keySum p.2.entries key) =
          chans.map fun p => (p.2.find? key).getD 0 :=
        List.map_congr_left fun p hp =>
          UserRelationshipGraphMap.keySum_entries_eq_find? p.2 (hwf p hp) key
      rw [hsum]
      exact zero_add _
    exact if_congr hcond (congrArg some hval) rfl
  refine ⟨?_, hchar, ?_, ?_⟩
  · intro s guild_id
    simp [SocialGraph.build_guild_graph, Option.map_eq_none']
  · intro s₁ s₂ guild_id chans₁ chans₂ hg₁ hg₂ hperm hwf₁ key
    have hwf₂ : ∀ p ∈ chans₂, p.2.WF := fun p hp => hwf₁ p (hperm.mem_iff.mpr hp)
    obtain ⟨m₁, hb₁, hc₁⟩ := hchar s₁ guild_id chans₁ hg₁ hwf₁
    obtain ⟨m₂, hb₂, hc₂⟩ := hchar s₂ guild_id chans₂ hg₂ hwf₂
    rw [hb₁, hb₂, Option.map_some', Option.map_some', hc₁ key, hc₂ key]
    have hcond : (∃ p ∈ chans₁, (p.2.find? key).isSome = true) ↔
        (∃ p ∈ chans₂, (p.2.find? key).isSome = true) := by
      constructor <;> rintro ⟨p, hp, h⟩
      · exact ⟨p, hperm.mem_iff.mp hp, h⟩
      · exact ⟨p, hperm.mem_iff.mpr hp, h⟩
    have hsum : (chans₁.map fun p => (p.2.find? key).getD 0).sum =
        (chans₂.map fun p => (p.2.find? key).getD 0).sum :=
      (hperm.map fun p => (p.2.find? key).getD 0).sum_eq
    exact congrArg some (if_congr hcond (congrArg some hsum) rfl)
  · have h : (SocialGraph.mk none
        (fun g => if g = 1 then
          some [(1, ⟨[((10, 20), 3)]⟩), (2, ⟨[((10, 20), 2)]⟩)] else none)
        (fun _ => none)).build_guild_graph 1 =
        some ⟨[((10, 20), (0 : RelationshipStrength) + 3 + 2)]⟩ := rfl
    have hv : ((0 : RelationshipStrength) + 3 + 2) = 5 := by norm_num
    rw [h, hv]

/-- Claim C8, witness: the merge characterization applied to a guild with
two channel graphs both holding the edge `(10, 20)` (weights 3 and 2). -/
theorem c8_build_guild_graph_witness :
    ∃ merged,
      (SocialGraph.mk none
        (fun g => if g = 1 then
          some [(1, ⟨[((10, 20), 3)]⟩), (2, ⟨[((10, 20), 2)]⟩)] else none)
        (fun _ => none)).build_guild_graph 1 = some merged ∧
      merged.find? (10, 20) =
        if ∃ p ∈ [((1 : ChannelId), (⟨[((10, 20), 3)]⟩ : UserRelationshipGraphMap)),
            (2, ⟨[((10, 20), 2)]⟩)], (p.2.find? (10, 20)).isSome = true then
          some (([((1 : ChannelId), (⟨[((10, 20), 3)]⟩ : UserRelationshipGraphMap)),
            (2, ⟨[((10, 20), 2)]⟩)].map fun p => (p.2.find? (10, 20)).getD 0).sum)
        else none := by
  obtain ⟨merged, hb, hc⟩ := c8_build_guild_graph.2.1
    (SocialGraph.mk none
      (fun g => if g = 1 then
        some [(1, ⟨[((10, 20), 3)]⟩), (2, ⟨[((10, 20), 2)]⟩)] else none)
      (fun _ => none)) 1
    [(1, ⟨[((10, 20), 3)]⟩), (2, ⟨[((10, 20), 2)]⟩)] rfl (by decide)
  exact ⟨merged, hb, hc (10, 20)⟩

/-! ## Claim C9: persistence round trip -/

/-- Facts about decimal digit characters, bundled for reuse. -/
theorem digitChar_facts : ∀ d, d < 10 →
    charVal (digitChar d) = d ∧ isDigitChar (digitChar d) ∧
    digitChar d ≠ ':' ∧ digitChar d ≠ '+' := by
  decide

/-- Parsing the reversed big-endian rendering of a digit list. -/
theorem foldl_digits_reverse (L : List Nat) (hL : ∀ d ∈ L, d < 10) :
    ∀ a : Nat,
      ((L.map digitChar).reverse).foldl (fun acc c => acc * 10 + charVal c) a =
        a * 10 ^ L.length + Nat.ofDigits 10 L := by
  induction L with
  | nil =>
    intro a
    simp [Nat.ofDigits]
  | cons d rest ih =>
    intro a
    rw [List.map_cons, List.reverse_cons, List.foldl_append]
    rw [ih (fun x hx => hL x (List.mem_cons_of_mem d hx)) a]
    simp only [List.foldl_cons, List.foldl_nil]
    rw [(digitChar_facts d (hL d (List.mem_cons_self d rest))).1,
      Nat.ofDigits_cons, List.length_cons]
    ring

/-- Every character of `natToChars n` is a decimal digit. -/
theorem natToChars_digits (n : Nat) : ∀ c ∈ natToChars n, isDigitChar c := by
  intro c hc
  unfold natToChars at hc
  by_cases h0 : n = 0
  · rw [if_pos h0] at hc
    simp only [List.mem_singleton] at hc
    subst hc
    decide
  · rw [if_neg h0, List.mem_reverse] at hc
    obtain ⟨d, hd, rfl⟩ := List.mem_map.mp hc
    exact (digitChar_facts d (Nat.digits_lt_base (by norm_num) hd)).2.1

/-- `natToChars` never produces an empty list. -/
theorem natToChars_ne_nil (n : Nat) : natToChars n ≠ [] := by
  unfold natToChars
  by_cases h0 : n = 0
  · simp [h0]
  · rw [if_neg h0]
    simp only [ne_eq, List.reverse_eq_nil_iff, List.map_eq_nil_iff]
    exact Nat.digits_ne_nil_iff_ne_zero.mpr h0

/-- `u64` display/parse round trip: `parseU64 (natToChars n) = some n` for
every value that fits in a `u64`. -/
theorem parseU64_natToChars (n : Nat) (hn : n < 2 ^ 64) :
    parseU64 (natToChars n) = some n := by
  by_cases h0 : n = 0
  · subst h0
    decide
  · have hdig := natToChars_digits n
    have hne := natToChars_ne_nil n
    have hhead : ¬(natToChars n).head? = some '+' := by
      intro hc
      have hmem : '+' ∈ natToChars n := List.mem_of_mem_head? hc
      have : isDigitChar '+' := hdig '+' hmem
      exact absurd this (by decide)
    unfold parseU64
    simp only [if_neg hhead, if_neg hne]
    rw [if_pos (List.all_eq_true.mpr fun c hc => decide_eq_true (hdig c hc))]
    have hfold : (natToChars n).foldl (fun acc c => acc * 10 + charVal c) 0 = n := by
      unfold natToChars
      rw [if_neg h0,
        foldl_digits_reverse (Nat.digits 10 n)
          (fun d hd => Nat.digits_lt_base (by norm_num) hd) 0]
      simp [Nat.ofDigits_digits]
    rw [hfold, if_pos hn]

/-- `split(':')` of a list without a colon. -/
theorem splitColon_no_colon (l : List Char) (h : ':' ∉ l) :
    splitColon l = [l] := by
  induction l with
  | nil => rfl
  | cons c rest ih =>
    simp only [List.mem_cons] at h
    push_neg at h
    have hc : ¬c = ':' := fun hc => h.1 hc.symm
    simp only [splitColon, if_neg hc, ih h.2]

/-- `split(':')` around the first colon. -/
theorem splitColon_append (xs ys : List Char) (h : ':' ∉ xs) :
    splitColon (xs ++ ':' :: ys) = xs :: splitColon ys := by
  induction xs with
  | nil => simp [splitColon]
  | cons c rest ih =>
    simp only [List.mem_cons] at h
    push_neg at h
    have hc : ¬c = ':' := fun hc => h.1 hc.symm
    simp only [List.cons_append, splitColon, if_neg hc, List.append_eq, ih h.2]


/-- The serialized key of a valid snowflake pair parses back to the pair. -/
theorem parseKey_serializeKey (s t : UserId)
    (hs0 : s ≠ 0) (ht0 : t ≠ 0) (hs : s < 2 ^ 64) (ht : t < 2 ^ 64) :
    parseKey (serializeKey s t) = some (s, t) := by
  have hnos : ':' ∉ natToChars s := fun hc =>
    absurd (natToChars_digits s ':' hc) (by decide)
  have hnot : ':' ∉ natToChars t := fun hc =>
    absurd (natToChars_digits t ':' hc) (by decide)
  unfold parseKey serializeKey
  rw [splitColon_append _ _ hnos, splitColon_no_colon _ hnot]
  simp [parseU64_natToChars s hs, parseU64_natToChars t ht, hs0, ht0]

/-- Updating a fresh key appends the entry. -/
theorem updateKey_not_mem {κ α : Type} [DecidableEq κ]
    (l : List (κ × α)) (key : κ) (f : Option α → α)
    (h : key ∉ l.map Prod.fst) :
    updateKey l key f = l ++ [(key, f none)] := by
  induction l with
  | nil => rfl
  | cons p rest ih =>
    obtain ⟨k, a⟩ := p
    simp only [List.map_cons, List.mem_cons] at h
    push_neg at h
    have hk : ¬k = key := fun hc => h.1 hc.symm
    simp only [updateKey, if_neg hk, List.cons_append, List.cons.injEq, true_and]
    exact ih h.2

/-- Validity of the ids in a graph: non-zero `u64` snowflakes, as the
`Id<UserMarker>` type guarantees. -/
def UserRelationshipGraphMap.ValidIds (g : UserRelationshipGraphMap) : Prop :=
  ∀ e ∈ g.entries, e.1.1 ≠ 0 ∧ e.1.2 ≠ 0 ∧ e.1.1 < 2 ^ 64 ∧ e.1.2 < 2 ^ 64

instance (g : UserRelationshipGraphMap) : Decidable g.ValidIds := by
  unfold UserRelationshipGraphMap.ValidIds
  infer_instance

/-- Replaying a serialized entry list into an accumulator reproduces the
entries, appended, provided the keys are fresh and unique. -/
theorem visit_map_serialize (es : List (EdgeKey × RelationshipStrength)) :
    ∀ acc : UserRelationshipGraphMap,
      (∀ e ∈ es, e.1.1 ≠ 0 ∧ e.1.2 ≠ 0 ∧ e.1.1 < 2 ^ 64 ∧ e.1.2 < 2 ^ 64) →
      (acc.keys ++ es.map Prod.fst).Nodup →
      visit_map (es.map fun p => (serializeKey p.1.1 p.1.2, p.2)) acc =
        some ⟨acc.entries ++ es⟩ := by
  induction es with
  | nil =>
    intro acc _ _
    simp [visit_map]
  | cons e rest ih =>
    intro acc hvalid hnodup
    obtain ⟨⟨s, t⟩, w⟩ := e
    have hv := hvalid _ (List.mem_cons_self _ _)
    simp only [List.map_cons, visit_map,
      parseKey_serializeKey s t hv.1 hv.2.1 hv.2.2.1 hv.2.2.2]
    have hfresh : (s, t) ∉ acc.keys := by
      intro hc
      have := (List.nodup_append.mp hnodup).2.2
      exact this hc (by simp)
    have hinsert : acc.insertEntry (s, t) w =
        ⟨acc.entries ++ [((s, t), w)]⟩ := by
      unfold UserRelationshipGraphMap.insertEntry
      rw [updateKey_not_mem _ _ _ hfresh]
    rw [hinsert, ih ⟨acc.entries ++ [((s, t), w)]⟩
      (fun e he => hvalid e (List.mem_cons_of_mem _ he)) ?_]
    · simp
    · have : (⟨acc.entries ++ [((s, t), w)]⟩ :
          UserRelationshipGraphMap).keys = acc.keys ++ [(s, t)] := by
        simp [UserRelationshipGraphMap.keys]
      rw [this, List.append_assoc]
      simpa using hnodup

/-- `deserialize` of `serialize` is the identity on well-formed graphs
with valid ids. -/
theorem deserialize_serialize (g : UserRelationshipGraphMap)
    (hwf : g.WF) (hids : g.ValidIds) :
    UserRelationshipGraphMap.deserialize g.serialize = some g := by
  unfold UserRelationshipGraphMap.deserialize UserRelationshipGraphMap.serialize
  rw [visit_map_serialize g.entries UserRelationshipGraphMap.new hids
    (by simpa [UserRelationshipGraphMap.new, UserRelationshipGraphMap.keys]
      using hwf)]
  rfl

/-- Claim C9.  Saving a non-empty channel graph (serializing to the flat
`"sourceId:targetId" -> weight` map) and loading from the same path
round-trips to the same weight map — exactly, in this exact-rational model
of `f32`, which is within any floating-point epsilon; and saving an empty
graph performs no file write at all (the path's previous contents, present
or absent, are untouched). -/
theorem c9_persistence_round_trip :
    (∀ (g : UserRelationshipGraphMap) (file : Option GraphFile),
      g.WF → g.ValidIds → g.entries ≠ [] →
      UserRelationshipGraphMap.new_from_path (g.save_to_path file) = some g) ∧
    (∀ (g : UserRelationshipGraphMap) (file : Option GraphFile),
      g.entries = [] → g.save_to_path file = file) := by
  constructor
  · intro g file hwf hids hne
    unfold UserRelationshipGraphMap.save_to_path
    rw [if_neg hne]
    unfold UserRelationshipGraphMap.new_from_path
    rw [Option.some_bind]
    exact deserialize_serialize g hwf hids
  · intro g file hempty
    unfold UserRelationshipGraphMap.save_to_path
    rw [if_pos hempty]

/-- Claim C9, witness: a one-edge graph saved over a missing file loads
back as itself, and saving the empty graph over an existing file leaves
the file untouched. -/
theorem c9_persistence_round_trip_witness :
    UserRelationshipGraphMap.new_from_path
      ((⟨[((3, 4), 7)]⟩ : UserRelationshipGraphMap).save_to_path none) =
      some ⟨[((3, 4), 7)]⟩ ∧
    (⟨[]⟩ : UserRelationshipGraphMap).save_to_path
      (some [("1:2".toList, 5)]) = some [("1:2".toList, 5)] :=
  ⟨c9_persistence_round_trip.1 ⟨[((3, 4), 7)]⟩ none (by decide)
      (by decide) (by decide),
   c9_persistence_round_trip.2 ⟨[]⟩ (some [("1:2".toList, 5)]) rfl⟩

/-! ## Claim C2: the strictly-positive edge strength invariant -/

/-- The spec's invariant: every edge present has strength strictly
greater than zero. -/
def UserRelationshipGraphMap.Good (g : UserRelationshipGraphMap) : Prop :=
  ∀ e ∈ g.entries, 0 < e.2

/-- The invariant over the whole store: every stored channel graph is
`Good`. -/
def SocialGraph.GoodStore (s : SocialGraph) : Prop :=
  ∀ guild_id chans, s.graph guild_id = some chans → ∀ p ∈ chans, p.2.Good

/-- A successful lookup comes from an actual entry. -/
theorem lookupKey_mem {κ α : Type} [DecidableEq κ]
    (l : List (κ × α)) (key : κ) (v : α) (h : lookupKey l key = some v) :
    (key, v) ∈ l := by
  induction l with
  | nil => exact absurd h (by simp)
  | cons q rest ih =>
    obtain ⟨k, a⟩ := q
    rw [lookupKey_cons] at h
    by_cases hk : key = k
    · rw [if_pos hk] at h
      obtain rfl := hk
      injection h with h'
      obtain rfl := h'
      exact List.mem_cons_self _ _
    · rw [if_neg hk] at h
      exact List.mem_cons_of_mem _ (ih h)

/-- Every entry of an updated map is an old entry or exactly the updated
entry `(key, f (lookupKey l key))`. -/
theorem mem_updateKey {κ α : Type} [DecidableEq κ]
    (l : List (κ × α)) (key : κ) (f : Option α → α) :
    ∀ p ∈ updateKey l key f, p ∈ l ∨ p = (key, f (lookupKey l key)) := by
  induction l with
  | nil =>
    intro p hp
    simp only [updateKey, List.mem_singleton] at hp
    exact Or.inr hp
  | cons q rest ih =>
    obtain ⟨k, a⟩ := q
    intro p hp
    by_cases hk : k = key
    · subst hk
      simp only [updateKey, if_pos rfl] at hp
      cases hp with
      | head => exact Or.inr (by simp [lookupKey_cons])
      | tail _ hp => exact Or.inl (List.mem_cons_of_mem _ hp)
    · have hk' : ¬key = k := fun hc => hk hc.symm
      simp only [updateKey, if_neg hk] at hp
      cases hp with
      | head => exact Or.inl (List.mem_cons_self _ _)
      | tail _ hp =>
        rcases ih p hp with h | h
        · exact Or.inl (List.mem_cons_of_mem _ h)
        · rw [lookupKey_cons, if_neg hk']
          exact Or.inr h

namespace UserRelationshipGraphMap

/-- Decay output is unconditionally `Good`: an entry surviving the decay
pass has strictly positive weight. -/
theorem Good_decay (g : UserRelationshipGraphMap)
    (amount : RelationshipStrength) : (g.decay amount).Good := by
  obtain ⟨l⟩ := g
  show ∀ e ∈ decayList l amount, 0 < e.2
  induction l with
  | nil => intro e he; simp [decayList] at he
  | cons p rest ih =>
    obtain ⟨k, w⟩ := p
    intro e he
    simp only [decayList] at he
    by_cases hle : w + amount ≤ 0
    · rw [if_pos hle] at he
      exact ih e he
    · rw [if_neg hle] at he
      rcases List.mem_cons.mp he with rfl | he
      · simpa using lt_of_not_le hle
      · exact ih e he

/-- `addWeight` with a positive amount preserves `Good`. -/
theorem Good_addWeight {g : UserRelationshipGraphMap} (hg : g.Good)
    (key : EdgeKey) {amount : RelationshipStrength} (ha : 0 < amount) :
    (g.addWeight key amount).Good := by
  intro e he
  rcases mem_updateKey g.entries key _ e he with h | rfl
  · exact hg e h
  · cases hlook : lookupKey g.entries key with
    | none => simpa [hlook] using ha
    | some v =>
      have hv : 0 < v := hg (key, v) (lookupKey_mem _ _ _ hlook)
      simpa [hlook] using add_pos hv ha

/-- Every change strength is strictly positive. -/
theorem get_change_strength_pos (r : RelationshipChangeReason) :
    0 < r.get_change_strength := by
  cases r <;> norm_num [RelationshipChangeReason.get_change_strength]

/-- Folding changes into a `Good` graph keeps it `Good`. -/
theorem Good_applyChanges {g : UserRelationshipGraphMap} (hg : g.Good)
    (changes : List RelationshipChange) : (g.applyChanges changes).Good := by
  induction changes generalizing g with
  | nil => exact hg
  | cons c rest ih =>
    exact ih (Good_addWeight hg (c.source, c.target) (get_change_strength_pos c.reason))

/-- Folding a `Good` graph's entries into a `Good` accumulator keeps the
accumulator `Good`. -/
theorem Good_foldl_addWeight (es : List (EdgeKey × RelationshipStrength))
    (hes : ∀ e ∈ es, 0 < e.2) :
    ∀ {acc : UserRelationshipGraphMap}, acc.Good →
      (es.foldl (fun gg e => gg.addWeight e.1 e.2) acc).Good := by
  induction es with
  | nil => intro acc hacc; exact hacc
  | cons e rest ih =>
    intro acc hacc
    exact ih (fun x hx => hes x (List.mem_cons_of_mem _ hx))
      (Good_addWeight hacc e.1 (hes e (List.mem_cons_self _ _)))

/-- `insertEntry` with a positive value preserves `Good`. -/
theorem Good_insertEntry {g : UserRelationshipGraphMap} (hg : g.Good)
    (key : EdgeKey) {w : RelationshipStrength} (hw : 0 < w) :
    (g.insertEntry key w).Good := by
  intro e he
  rcases mem_updateKey g.entries key _ e he with h | rfl
  · exact hg e h
  · exact hw

end UserRelationshipGraphMap

/-- The empty graph satisfies the invariant. -/
theorem UserRelationshipGraphMap.Good_new : UserRelationshipGraphMap.new.Good :=
  fun e he => absurd he (List.not_mem_nil e)

/-- Replaying a positive-valued file keeps the accumulator `Good`. -/
theorem good_visit_map (file : GraphFile) :
    ∀ (acc g' : UserRelationshipGraphMap), (∀ e ∈ file, 0 < e.2) →
      acc.Good → visit_map file acc = some g' → g'.Good := by
  induction file with
  | nil =>
    intro acc g' _ hacc h
    injection h with h
    exact h ▸ hacc
  | cons e rest ih =>
    obtain ⟨key, v⟩ := e
    intro acc g' hfile hacc h
    simp only [visit_map] at h
    cases hparse : parseKey key with
    | none => rw [hparse] at h; exact Option.noConfusion h
    | some k =>
      rw [hparse] at h
      exact ih _ _ (fun x hx => hfile x (List.mem_cons_of_mem _ hx))
        (UserRelationshipGraphMap.Good_insertEntry hacc k
          (hfile (key, v) (List.mem_cons_self _ _))) h

/-- Folding `Good` channel graphs keeps the accumulator `Good`. -/
theorem good_foldl_channels
    (chans : List (ChannelId × UserRelationshipGraphMap))
    (hchans : ∀ p ∈ chans, p.2.Good) :
    ∀ {acc : UserRelationshipGraphMap}, acc.Good →
      (chans.foldl
        (fun gg p => p.2.entries.foldl (fun gg e => gg.addWeight e.1 e.2) gg)
        acc).Good := by
  induction chans with
  | nil => intro acc hacc; exact hacc
  | cons p rest ih =>
    intro acc hacc
    exact ih (fun x hx => hchans x (List.mem_cons_of_mem _ hx))
      (UserRelationshipGraphMap.Good_foldl_addWeight p.2.entries
        (hchans p (List.mem_cons_self _ _)) hacc)

/-- Claim C2.  Every operation on the relationship graph store preserves
the invariant that an edge present in a channel graph has strictly
positive strength: (1) decay maps an edge of weight `w` to `w + amount`,
removing it within the same operation when the new weight is `<= 0.0`, so
that it is absent from every subsequent read until re-created; (2) any
graph produced by decay satisfies the invariant outright; (3) `apply`
preserves the invariant across the whole store (the changes it folds in
all carry strictly positive strengths); (4) the guild graph merged by
`build_guild_graph` satisfies the invariant whenever the store does; (5)
hydrating a graph file whose weights are positive yields a graph
satisfying the invariant, and (6) the files written by `save` (serialize)
only carry positive weights — so a save/hydrate cycle preserves the
invariant. -/
theorem c2_positive_strength_invariant :
    (∀ (g : UserRelationshipGraphMap) (amount : RelationshipStrength)
      (key : EdgeKey), g.WF →
      (g.decay amount).find? key =
        match g.find? key with
        | some w => if w + amount ≤ 0 then none else some (w + amount)
        | none => none) ∧
    (∀ (g : UserRelationshipGraphMap) (amount : RelationshipStrength),
      (g.decay amount).Good) ∧
    (∀ (s : SocialGraph) (i : Interaction) (changes : List RelationshipChange),
      s.GoodStore → (s.apply i changes).GoodStore) ∧
    (∀ (s : SocialGraph) (guild_id : GuildId)
      (merged : UserRelationshipGraphMap), s.GoodStore →
      s.build_guild_graph guild_id = some merged → merged.Good) ∧
    (∀ (file : GraphFile) (g' : UserRelationshipGraphMap),
      (∀ e ∈ file, 0 < e.2) →
      UserRelationshipGraphMap.deserialize file = some g' → g'.Good) ∧
    (∀ g : UserRelationshipGraphMap, g.Good → ∀ e ∈ g.serialize, 0 < e.2) := by
  refine ⟨?_, UserRelationshipGraphMap.Good_decay, ?_, ?_, ?_, ?_⟩
  · intro g amount key hwf
    exact UserRelationshipGraphMap.find?_decay g amount key hwf
  · intro s i changes hgs gid chans hchans p hp
    simp only [SocialGraph.apply] at hchans
    by_cases hgid : gid = i.guild
    · rw [if_pos hgid] at hchans
      injection hchans with hchans
      rcases mem_updateKey _ i.channel _ p (hchans ▸ hp) with hmem | rfl
      · by_cases hcond :
            i.what = InteractionType.Message ∧ i.source_is_bot = false
        · rw [if_pos hcond] at hmem
          obtain ⟨q, hq, rfl⟩ := List.mem_map.mp hmem
          exact UserRelationshipGraphMap.Good_decay q.2 RELATIONSHIP_DECAY_GLOBAL
        · rw [if_neg hcond] at hmem
          cases hgraph : s.graph i.guild with
          | none => rw [hgraph] at hmem; simp at hmem
          | some chs =>
            rw [hgraph] at hmem
            exact hgs i.guild chs hgraph p hmem
      · exact UserRelationshipGraphMap.Good_applyChanges
          (UserRelationshipGraphMap.Good_decay _ RELATIONSHIP_DECAY) changes
    · rw [if_neg hgid] at hchans
      exact hgs gid chans hchans p hp
  · intro s guild_id merged hgs hmerged
    unfold SocialGraph.build_guild_graph at hmerged
    obtain ⟨chans, hchans, rfl⟩ := Option.map_eq_some'.mp hmerged
    exact good_foldl_channels chans (hgs guild_id chans hchans)
      UserRelationshipGraphMap.Good_new
  · intro file g' hfile h
    exact good_visit_map file UserRelationshipGraphMap.new g' hfile
      UserRelationshipGraphMap.Good_new h
  · intro g hg e he
    obtain ⟨q, hq, rfl⟩ := List.mem_map.mp he
    exact hg q hq

/-- Claim C2, witness: the decay characterization instantiated at a
one-edge graph, and `apply` on the fresh (vacuously invariant-satisfying)
store keeps the store invariant-satisfying. -/
theorem c2_positive_strength_invariant_witness :
    ((⟨[((1, 2), 3)]⟩ : UserRelationshipGraphMap).decay
        RELATIONSHIP_DECAY).find? (1, 2) =
      (match (⟨[((1, 2), 3)]⟩ : UserRelationshipGraphMap).find? (1, 2) with
       | some w => if w + RELATIONSHIP_DECAY ≤ 0 then none
         else some (w + RELATIONSHIP_DECAY)
       | none => none) ∧
    ((SocialGraph.new none).apply
      ⟨InteractionType.Message, 0, 1, 2, 7, false, some 8, []⟩
      [⟨7, 8, RelationshipChangeReason.MessageDirectMention⟩]).GoodStore :=
  ⟨c2_positive_strength_invariant.1 ⟨[((1, 2), 3)]⟩ RELATIONSHIP_DECAY (1, 2)
      (by decide),
   c2_positive_strength_invariant.2.2.1 (SocialGraph.new none)
      ⟨InteractionType.Message, 0, 1, 2, 7, false, some 8, []⟩
      [⟨7, 8, RelationshipChangeReason.MessageDirectMention⟩]
      (fun _ _ h => Option.noConfusion h)⟩

end Discograph
